import Mathlib

/-!
# Verification of the `slippery` slippy-map tile engine

Shallow embedding of the core of the `slippery` repository (Rust) in Lean 4,
together with proofs of the specification claims about it.

Conventions of the embedding:
* `f64`/`f32` values are idealised as exact rationals (`ℚ`); all floating-point
  arithmetic in the source is field arithmetic, so each transform is rendered
  exactly.  Tolerances in round-trip claims become exact equalities.
* Machine integers are `ℕ`/`ℤ`; where the Rust code can overflow or underflow
  (`usize` subtraction, `u32.pow`) this is modelled explicitly
  (`usize_checked_sub`, `usize_wrapping_sub`).
* `Instant` timestamps are rationals (seconds); `Instant::now()` becomes an
  explicit `now` parameter threaded through the state transitions.
* `HashMap` is modelled as an association list; iteration order of a `HashMap`
  is arbitrary, which the list order represents.
* Opaque renderer types (`image::Handle`, `image::Allocation`) are modelled as
  natural numbers; the code only clones and compares them.
-/

namespace Slippery

/-- Rust's `f64::clamp(lo, hi)` on exact rationals. -/
def clampQ (v lo hi : ℚ) : ℚ := max lo (min v hi)

/-! ## `zoom.rs` -/

/-- Rust `Zoom(f64)` from `zoom.rs`: a wrapper around the zoom value. -/
structure Zoom where
  val : ℚ
deriving DecidableEq, Repr

namespace Zoom

/-- Rust `TryFrom<f64> for Zoom` (`zoom.rs` lines 8–19): accept exactly the range
`2.0 ..= 26.0`; `none` models `Err(InvalidZoom)`. -/
def tryFrom (value : ℚ) : Option Zoom :=
  if ¬(2 ≤ value ∧ value ≤ 26) then none else some ⟨value⟩

/-- Rust `Zoom::zoom_by` (`zoom.rs` lines 59–63): `if let Ok(new_self) =
Self::try_from(self.0 + zoom_amount) { *self = new_self }` — the zoom is
replaced only when the raw sum is itself a valid zoom, otherwise unchanged. -/
def zoom_by (z : Zoom) (zoom_amount : ℚ) : Zoom :=
  match tryFrom (z.val + zoom_amount) with
  | some z₂ => z₂
  | none => z

end Zoom

/-! ## `position.rs` -/

/-- Rust `Mercator` from `position.rs`: normalized projected coordinate. -/
structure Mercator where
  x : ℚ
  y : ℚ
deriving DecidableEq, Repr

namespace Mercator

/-- Rust `Mercator::new` (`position.rs` lines 23–28): clamps both components
into `[-1, 1]`. -/
def new (east north : ℚ) : Mercator :=
  ⟨clampQ east (-1) 1, clampQ north (-1) 1⟩

end Mercator

/-- Rust `Geographic` from `position.rs`. -/
structure Geographic where
  lon : ℚ
  lat : ℚ
deriving DecidableEq, Repr

namespace Geographic

/-- Rust `Geographic::new` (`position.rs` lines 90–95): clamps longitude into
`[-180, 180]` and latitude into the Web-Mercator-valid `[-85.05, 85.05]`. -/
def new (lon lat : ℚ) : Geographic :=
  ⟨clampQ lon (-180) 180, clampQ lat (-8505/100) (8505/100)⟩

end Geographic

end Slippery

namespace Slippery

/-! ## `tile.rs` — tile identifiers and the tile grid -/

/-- Rust `total_tiles` (`position.rs` lines 9–11): number of tiles along one axis.
The Rust code computes `2u32.pow(zoom)`, which overflows for `zoom ≥ 32`; the
overflow itself is modelled by `u32_checked_pow2` below, while the grid uses
the mathematical value. -/
def total_tiles (zoom : ℕ) : ℕ := 2 ^ zoom

/-- Rust `2u32.pow(zoom)` with `u32` overflow made explicit: `none` models the
debug-build panic (release builds wrap). -/
def u32_checked_pow2 (zoom : ℕ) : Option ℕ :=
  if 2 ^ zoom < 2 ^ 32 then some (2 ^ zoom) else none

/-- Rust `TileId` from `tile.rs` (re-exported as `TileCoord`). -/
structure TileId where
  x : ℕ
  y : ℕ
  zoom : ℕ
deriving DecidableEq, Repr

namespace TileId

/-- Rust `TileId::new` (`tile.rs` lines 27–34): clamps `x` and `y` into
`[0, num_tiles - 1]`.  For `ℕ` the lower clamp is trivial, the upper clamp
is `min`. -/
def new (x y : ℕ) (zoom : ℕ) : TileId :=
  ⟨min x (total_tiles zoom - 1), min y (total_tiles zoom - 1), zoom⟩

/-- Rust `TileId::east` (`tile.rs`): `(x < total_tiles(zoom) - 1).then(...)`. -/
def east (t : TileId) : Option TileId :=
  if t.x < total_tiles t.zoom - 1 then some ⟨t.x + 1, t.y, t.zoom⟩ else none

/-- Rust `TileId::west` (`tile.rs`): `x.checked_sub(1)`. -/
def west (t : TileId) : Option TileId :=
  if t.x = 0 then none else some ⟨t.x - 1, t.y, t.zoom⟩

/-- Rust `TileId::north` (`tile.rs`): `y.checked_sub(1)`. -/
def north (t : TileId) : Option TileId :=
  if t.y = 0 then none else some ⟨t.x, t.y - 1, t.zoom⟩

/-- Rust `TileId::south` (`tile.rs`): `(y < total_tiles(zoom) - 1).then(...)`. -/
def south (t : TileId) : Option TileId :=
  if t.y < total_tiles t.zoom - 1 then some ⟨t.x, t.y + 1, t.zoom⟩ else none

/-- Rust `TileId::neighbors` (`tile.rs` lines 126–128). -/
def neighbors (t : TileId) : List (Option TileId) :=
  [t.north, t.east, t.south, t.west]

/-- Rust `TileId::valid` (`tile.rs` lines 130–132). -/
def valid (t : TileId) : Prop :=
  t.x < total_tiles t.zoom ∧ t.y < total_tiles t.zoom

instance (t : TileId) : Decidable t.valid := by
  unfold valid; infer_instance

/-- Modelled from the spec: `TileCoord::to_mercator` (the file `tile_coord.rs`
referenced by `lib.rs` and `map_widget.rs` is absent from the sources; spec §3
says a `TileCoord` provides "conversion to/from Mercator (tile's origin
corner)").  The whole map is `[-1, 1]²` and the grid has `2^zoom` tiles per
axis, so tile `(x, y)` has its origin corner at
`(2·x/2^zoom - 1, 2·y/2^zoom - 1)`. -/
def to_mercator (t : TileId) : Mercator :=
  ⟨2 * (t.x : ℚ) / total_tiles t.zoom - 1, 2 * (t.y : ℚ) / total_tiles t.zoom - 1⟩

end TileId

/-! ## `iced` geometry: `Point`, `Vector`, `Rectangle` -/

/-- A 2D point (`iced::Point`), components exact rationals. -/
structure Pt where
  x : ℚ
  y : ℚ
deriving DecidableEq, Repr

namespace Pt

def add (a b : Pt) : Pt := ⟨a.x + b.x, a.y + b.y⟩

def sub (a b : Pt) : Pt := ⟨a.x - b.x, a.y - b.y⟩

end Pt

/-- Rust `iced::Rectangle`: top-left corner plus size. -/
structure Rect where
  x : ℚ
  y : ℚ
  width : ℚ
  height : ℚ
deriving DecidableEq, Repr

namespace Rect

/-- Rust `Rectangle::center`. -/
def center (r : Rect) : Pt := ⟨r.x + r.width / 2, r.y + r.height / 2⟩

/-- Rust `Rectangle::expand(amount)`: grow by `amount` on every side. -/
def expand (r : Rect) (amount : ℚ) : Rect :=
  ⟨r.x - amount, r.y - amount, r.width + 2 * amount, r.height + 2 * amount⟩

/-- Rust `Rectangle::intersects` (iced): the intersection rectangle has strictly
positive width and height. -/
def intersects (a b : Rect) : Prop :=
  max a.x b.x < min (a.x + a.width) (b.x + b.width) ∧
    max a.y b.y < min (a.y + a.height) (b.y + b.height)

instance (a b : Rect) : Decidable (a.intersects b) := by
  unfold intersects; infer_instance

end Rect

/-! ## `projector.rs` and the pixel-space conversions of `position.rs` -/

/-- Rust `BASE_SIZE` (`map_widget.rs` line 23). -/
def BASE_SIZE : ℕ := 512

/-- Rust `RoundCeil::round_ceil` (`lib.rs` lines 37–41): `(self + 0.5).floor()`. -/
def roundCeil (q : ℚ) : ℚ := ⌊q + 1 / 2⌋

/-- Rust `RoundCeil` on points (`lib.rs` lines 43–50). -/
def roundCeilPt (p : Pt) : Pt := ⟨roundCeil p.x, roundCeil p.y⟩

/-- Rust `pixels_half_width` as computed in `Mercator::into_pixel_space`
(`position.rs` lines 45–56): `2f64.powf(zoom - 1.0) * BASE_SIZE`, for an
integer zoom level.  The round-trip theorems are stated for an arbitrary
positive `phw : ℚ`, which also covers fractional zoom levels (where
`2^(zoom-1)` is irrational and has no exact rational image). -/
def pixelsHalfWidth (zoom : ℤ) : ℚ := 2 ^ (zoom - 1) * (BASE_SIZE : ℚ)

/-- Rust `Mercator::into_pixel_space` (`position.rs` lines 50–56), with the
`pixels_half_width` factor passed explicitly. -/
def Mercator.into_pixel_space (m : Mercator) (phw : ℚ) : Pt :=
  ⟨m.x * phw, m.y * phw⟩

/-- Rust `Mercator::from_pixel_space` (`position.rs` lines 45–48): divides by
`pixels_half_width` and re-clamps via `Mercator::new`. -/
def Mercator.from_pixel_space (point : Pt) (phw : ℚ) : Mercator :=
  Mercator.new (point.x / phw) (point.y / phw)

/-- The projector state (`projector.rs`): viewpoint position (already a
`Mercator`), the `pixels_half_width` scale standing for the viewpoint zoom,
and the viewport bounds.  The cursor field is irrelevant to the claims. -/
structure Projector where
  position : Mercator
  phw : ℚ
  bounds : Rect
deriving Repr

namespace Projector

/-- Rust `Viewpoint::into_pixel_space` (`viewpoint.rs` lines 25–27). -/
def viewpointPixelSpace (p : Projector) : Pt :=
  p.position.into_pixel_space p.phw

/-- Rust `Projector::screen_space_into_pixel_space` (`projector.rs` lines 77–84). -/
def screen_space_into_pixel_space (p : Projector) (point : Pt) : Pt :=
  let center_pixel_space := roundCeilPt p.viewpointPixelSpace
  center_pixel_space.add (point.sub p.bounds.center)

/-- Rust `Projector::pixel_space_into_screen_space` (`projector.rs` lines 93–100). -/
def pixel_space_into_screen_space (p : Projector) (point : Pt) : Pt :=
  let center_pixel_space := roundCeilPt p.viewpointPixelSpace
  p.bounds.center.add (point.sub center_pixel_space)

/-- Rust `Projector::mercator_into_pixel_space` (`projector.rs` lines 34–36). -/
def mercator_into_pixel_space (p : Projector) (position : Mercator) : Pt :=
  position.into_pixel_space p.phw

/-- Rust `Projector::pixel_space_into_mercator` (`projector.rs` lines 42–44). -/
def pixel_space_into_mercator (p : Projector) (point : Pt) : Mercator :=
  Mercator.from_pixel_space point p.phw

/-- Rust `Projector::mercator_into_screen_space` (`projector.rs` lines 53–56). -/
def mercator_into_screen_space (p : Projector) (position : Mercator) : Pt :=
  p.pixel_space_into_screen_space (p.mercator_into_pixel_space position)

/-- Rust `Projector::screen_space_into_mercator` (`projector.rs` lines 65–68). -/
def screen_space_into_mercator (p : Projector) (point : Pt) : Mercator :=
  p.pixel_space_into_mercator (p.screen_space_into_pixel_space point)

end Projector

/-! ## `tile_cache.rs` — the fetch/allocate state machine -/

/-- Rust `image::Handle` (raw image bytes), opaque. -/
abbrev Handle := ℕ

/-- Rust `image::Allocation` (renderer-side resource), opaque. -/
abbrev Allocation := ℕ

/-- Rust `State` (`tile_cache.rs` lines 62–68). -/
inductive TState where
  | loading : TState
  | loaded (handle : Handle) : TState
  | allocating (handle : Handle) : TState
  | allocated (handle : Handle) (alloc : Allocation) : TState
deriving DecidableEq, Repr

/-- Rust `Entry` (`tile_cache.rs` lines 70–74): a state plus a last-used timestamp
(seconds, exact). -/
structure Entry where
  state : TState
  last_used : ℚ
deriving DecidableEq, Repr

/-- Rust `Entry::new` (`tile_cache.rs` lines 77–82): timestamps with `now`. -/
def Entry.new (state : TState) (now : ℚ) : Entry := ⟨state, now⟩

/-- Rust `CacheMessage` (`tile_cache.rs` lines 33–60). -/
inductive CacheMessage where
  | load (id : TileId) : CacheMessage
  | loaded (id : TileId) (handle : Handle) : CacheMessage
  | loadFailed (id : TileId) : CacheMessage
  | allocate (id : TileId) : CacheMessage
  | allocated (id : TileId) (alloc : Allocation) : CacheMessage
  | allocFailed (id : TileId) : CacheMessage
  | deallocate (id : TileId) : CacheMessage
  | prune : CacheMessage
deriving DecidableEq, Repr

/-- The follow-up work an `update` returns inside its `iced::Task`:
either a message delivered back immediately (`Task::done`), an asynchronous
tile fetch, an asynchronous renderer allocation, or a message delivered after
a delay in milliseconds (`tokio::time::sleep`). -/
inductive Followup where
  | done (msg : CacheMessage) : Followup
  | fetch (id : TileId) : Followup
  | allocRequest (id : TileId) (handle : Handle) : Followup
  | delayed (ms : ℚ) (msg : CacheMessage) : Followup
deriving DecidableEq, Repr

/-- Rust `PRUNE_TIME` (`tile_cache.rs` line 17), in seconds. -/
def PRUNE_TIME : ℚ := 60

/-- Rust `PRUNE_THRESH` (`tile_cache.rs` line 18). -/
def PRUNE_THRESH : ℕ := 1024

/-- The cache map: a `HashMap<TileCoord, Entry>` as an association list. -/
abbrev CacheMap := List (TileId × Entry)

namespace CacheMap

/-- Rust `HashMap::get`. -/
def lookup (m : CacheMap) (id : TileId) : Option Entry :=
  match m with
  | [] => none
  | (k, e) :: rest => if k = id then some e else lookup rest id

/-- Rust `HashMap::insert` (replaces an existing binding, else adds one). -/
def insert (m : CacheMap) (id : TileId) (e : Entry) : CacheMap :=
  match m with
  | [] => [(id, e)]
  | (k, e₀) :: rest => if k = id then (k, e) :: rest else (k, e₀) :: insert rest id e

/-- Rust `HashMap::remove`. -/
def remove (m : CacheMap) (id : TileId) : CacheMap :=
  match m with
  | [] => []
  | (k, e₀) :: rest => if k = id then rest else (k, e₀) :: remove rest id

end CacheMap

/-- Rust `TileCache` (`tile_cache.rs` lines 89–96): the per-source cache state.
The fetcher configuration (semaphore, HTTP client, source) is immutable and
does not influence the state machine, so it is omitted. -/
structure TileCache where
  cache : CacheMap
  cleanup_timer : ℚ
deriving DecidableEq, Repr

/-- Rust `TileCache::new` (`tile_cache.rs` lines 102–116), at time `now`. -/
def TileCache.new (now : ℚ) : TileCache := ⟨[], now⟩

/-- Rust `usize` subtraction with the underflow made explicit: `none` models the
debug-build panic at `let prune_target = start_size - PRUNE_THRESH;`
(`tile_cache.rs` line 176). -/
def usize_checked_sub (a b : ℕ) : Option ℕ :=
  if b ≤ a then some (a - b) else none

/-- Rust `usize` subtraction as compiled in release builds: two's-complement
wrap-around modulo `2^64`. -/
def usize_wrapping_sub (a b : ℕ) : ℕ :=
  (((a : ℤ) - (b : ℤ)) % (2 ^ 64 : ℤ)).toNat

/-- The body of the `retain` closure in the `Prune` arm (`tile_cache.rs`
lines 177–194), iterating the map entries in (arbitrary) order while
threading the captured `prune_count`.  `start_time` is the `Instant::now()`
taken at the start of the prune. -/
def pruneRetain (start_time : ℚ) (prune_target : ℕ) :
    CacheMap → ℕ → CacheMap
  | [], _ => []
  | (id, v) :: rest, prune_count =>
    if prune_target ≤ prune_count then
      (id, v) :: pruneRetain start_time prune_target rest prune_count
    else
      let retain :=
        match v.state with
        | .loading => true
        | .allocating _ => true
        | _ =>
          if id.zoom < 6 then true
          else
            -- `start_time.checked_duration_since(v.last_used)`:
            -- `none` when `last_used` is in the future of `start_time`.
            match (if v.last_used ≤ start_time
                   then some (start_time - v.last_used) else none) with
            | none => true
            | some diff => decide (diff < PRUNE_TIME)
      if retain then (id, v) :: pruneRetain start_time prune_target rest prune_count
      else pruneRetain start_time prune_target rest (prune_count + 1)

/-- Rust `TileCache::update` (`tile_cache.rs` lines 162–304), at time `now`
(the `Instant::now()` of this update).  Returns the new cache state and the
list of follow-up actions contained in the returned `Task` batch.  The
`Prune` arm computes `prune_target` with release-build (wrapping) semantics;
the debug-build panic on underflow is captured by `usize_checked_sub`. -/
def TileCache.update (tc : TileCache) (now : ℚ) (update : CacheMessage) :
    TileCache × List Followup :=
  -- Periodically schedule a prune
  let sched := PRUNE_THRESH < tc.cache.length ∧ 5 < now - tc.cleanup_timer
  let cleanup_task : List Followup := if sched then [.done .prune] else []
  let cleanup_timer := if sched then now else tc.cleanup_timer
  match update with
  | .prune =>
    let start_size := tc.cache.length
    let prune_target := usize_wrapping_sub start_size PRUNE_THRESH
    (⟨pruneRetain now prune_target tc.cache 0, cleanup_timer⟩, cleanup_task)
  | .load id =>
    if (tc.cache.lookup id).isSome then
      (⟨tc.cache, cleanup_timer⟩, cleanup_task)
    else
      -- Insert entry to indicate the tile is being loaded
      (⟨tc.cache.insert id (Entry.new .loading now), cleanup_timer⟩,
        cleanup_task ++ [.fetch id])
  | .loaded id handle =>
    -- Unconditional insert, then immediately allocate with the renderer
    (⟨tc.cache.insert id (Entry.new (.loaded handle) now), cleanup_timer⟩,
      cleanup_task ++ [.done (.allocate id)])
  | .loadFailed id =>
    match tc.cache.lookup id with
    | some ⟨.loading, _⟩ => (⟨tc.cache.remove id, cleanup_timer⟩, cleanup_task)
    | _ => (⟨tc.cache, cleanup_timer⟩, cleanup_task)
  | .allocate id =>
    match tc.cache.lookup id with
    | some ⟨.loaded handle, _⟩ =>
      (⟨tc.cache.insert id ⟨.allocating handle, now⟩, cleanup_timer⟩,
        cleanup_task ++ [.allocRequest id handle])
    | _ => (⟨tc.cache, cleanup_timer⟩, cleanup_task)
  | .allocated id alloc =>
    match tc.cache.lookup id with
    | some ⟨.allocating handle, _⟩ =>
      (⟨tc.cache.insert id ⟨.allocated handle alloc, now⟩, cleanup_timer⟩,
        cleanup_task ++
          if 1 < id.zoom then [.delayed 100 (.deallocate id)] else [])
    | some ⟨.loaded handle, _⟩ =>
      (⟨tc.cache.insert id ⟨.allocated handle alloc, now⟩, cleanup_timer⟩,
        cleanup_task ++
          if 1 < id.zoom then [.delayed 100 (.deallocate id)] else [])
    | _ => (⟨tc.cache, cleanup_timer⟩, cleanup_task)
  | .allocFailed id =>
    match tc.cache.lookup id with
    | some ⟨.allocating handle, lu⟩ =>
      (⟨tc.cache.insert id ⟨.loaded handle, lu⟩, cleanup_timer⟩, cleanup_task)
    | _ => (⟨tc.cache, cleanup_timer⟩, cleanup_task)
  | .deallocate id =>
    match tc.cache.lookup id with
    | some ⟨.allocated handle _, lu⟩ =>
      -- Downgrade from Allocated to Loaded by dropping the Allocation
      (⟨tc.cache.insert id ⟨.loaded handle, lu⟩, cleanup_timer⟩, cleanup_task)
    | _ => (⟨tc.cache, cleanup_timer⟩, cleanup_task)

/-! ## `draw_cache.rs` -/

/-- Rust `DrawData` (`draw_cache.rs` lines 12–17). -/
structure DrawData where
  handle : Handle
  center : Pt
  size : ℚ
  allocation : Allocation
deriving DecidableEq, Repr

/-- Rust `DrawCache` (`draw_cache.rs` lines 8–10): a `HashMap<u8, HashMap<(u32,
u32), DrawData>>`, modelled as nested association lists (the list orders
standing for the arbitrary `HashMap` iteration orders). -/
structure DrawCache where
  maps : List (ℕ × List ((ℕ × ℕ) × DrawData))

namespace DrawCache

/-- Rust `self.maps[zoom]` (`HashMap` indexing in `iter_tiles`). -/
def groupAt : List (ℕ × List ((ℕ × ℕ) × DrawData)) → ℕ → List ((ℕ × ℕ) × DrawData)
  | [], _ => []
  | (k, g) :: rest, z => if k = z then g else groupAt rest z

/-- Rust `DrawCache::iter_tiles` (`draw_cache.rs` lines 110–119): collect the zoom
keys, sort them ascending, then yield each zoom level's stored `DrawData`. -/
def iter_tiles (dc : DrawCache) : List DrawData :=
  let zooms := (dc.maps.map Prod.fst).mergeSort
  zooms.flatMap fun zoom => (groupAt dc.maps zoom).map Prod.snd

/-- All stored placements in the cache's own (arbitrary) iteration order. -/
def storedData (dc : DrawCache) : List DrawData :=
  dc.maps.flatMap fun pr => pr.2.map Prod.snd

end DrawCache

/-! ## `map_widget.rs` — the flood-fill visibility search -/

/-- Rust `MapWidget::position_of_tile` (`map_widget.rs` lines 82–98).  In the
source, `size = tile_size * 2^(log2(BASE_SIZE / tile_size)) *
2^(viewpoint_zoom - tile_zoom) = BASE_SIZE * 2^(viewpoint_zoom - tile_zoom)`;
with `phw = 2^(viewpoint_zoom - 1) * BASE_SIZE` this is exactly
`2 * phw / 2^tile_zoom`, which is the form used here so that the embedding
stays within exact rationals for every (possibly fractional) viewpoint
zoom. -/
def position_of_tile (p : Projector) (tile_id : TileId) : Rect :=
  let size := 2 * p.phw / (total_tiles tile_id.zoom : ℚ)
  let screen_pos := p.mercator_into_screen_space tile_id.to_mercator
  ⟨screen_pos.x, screen_pos.y, size, size⟩

/-- Rust `Mercator::tile_id` (`position.rs` lines 67–77): map the position into
`[0,1]²`, scale by the number of tiles, floor, and clamp via `TileId::new`
(the `as u32` cast saturates below at `0`, i.e. `Int.toNat`). -/
def Mercator.tile_id (m : Mercator) (zoom : ℕ) : TileId :=
  let x := (m.x + 1) / 2
  let y := (m.y + 1) / 2
  let number_of_tiles : ℚ := (total_tiles zoom : ℚ)
  TileId.new (⌊x * number_of_tiles⌋.toNat) (⌊y * number_of_tiles⌋.toNat) zoom

/-- The visited map of the flood fill: `HashMap<TileCoord, Option<Rectangle>>`
as an association list. -/
abbrev VisitMap := List (TileId × Option Rect)

/-- Rust `HashMap::entry`-style lookup on the visited map. -/
def VisitMap.find : VisitMap → TileId → Option (Option Rect)
  | [], _ => none
  | (k, v) :: rest, id => if k = id then some v else VisitMap.find rest id

/-- Rust `MapWidget::flood_tiles_inner` (`map_widget.rs` lines 124–149), with an
explicit recursion budget `fuel`.  The Rust function recurses without a
budget; `floodInner_stable` below shows that `floodFuel` is always enough,
i.e. that the recursion terminates with this value. -/
def floodInner (p : Projector) (viewport : Rect) :
    ℕ → TileId → VisitMap → VisitMap
  | 0, _, tiles => tiles
  | fuel + 1, tile_id, tiles =>
    -- Return early if this entry has already been checked
    match tiles.find tile_id with
    | some _ => tiles
    | none =>
      let rectangle := position_of_tile p tile_id
      -- Accept the tile if it intersects the viewport
      if viewport.intersects rectangle then
        -- Recurse using all valid neighbors
        (tile_id.neighbors.reduceOption).foldl
          (fun acc n => floodInner p viewport fuel n acc)
          ((tile_id, some rectangle) :: tiles)
      else
        (tile_id, none) :: tiles

/-- Recursion budget sufficient to explore the whole grid at one zoom level. -/
def floodFuel (zoom : ℕ) : ℕ := total_tiles zoom * total_tiles zoom + 1

/-- Rust `MapWidget::flood_tiles` (`map_widget.rs` lines 102–122).  The central
zoom is `(viewpoint_zoom + log2(BASE_SIZE / tile_size)).min(max_zoom).round()
as u8` in the source — a natural number derived from the cache configuration;
the theorems quantify over this `central_zoom` directly, which covers every
tile size and max-zoom configuration.  The `drain().filter_map(...)` keeps
exactly the accepted tiles. -/
def flood_tiles (p : Projector) (viewport : Rect) (central_zoom : ℕ) :
    List (TileId × Rect) :=
  let central_tile_id := p.position.tile_id central_zoom
  let tiles := floodInner p viewport (floodFuel central_zoom) central_tile_id []
  tiles.filterMap fun pr => pr.2.map fun r => (pr.1, r)

/-- The full tile grid at one zoom level, as a finite set of `(x, y)` pairs. -/
def gridZ (zoom : ℕ) : Finset (ℕ × ℕ) :=
  Finset.range (total_tiles zoom) ×ˢ Finset.range (total_tiles zoom)

/-- The zoom-`z` tiles already recorded in a visited map. -/
def visitedZ (zoom : ℕ) (tiles : VisitMap) : Finset (ℕ × ℕ) :=
  (gridZ zoom).filter fun pr => (tiles.find ⟨pr.1, pr.2, zoom⟩).isSome

/-- Tiles at zoom `z` still unexplored: the termination measure of the
flood-fill recursion. -/
def measureZ (zoom : ℕ) (tiles : VisitMap) : ℕ :=
  (gridZ zoom).card - (visitedZ zoom tiles).card

/-- One visited map extends another (the flood fill only ever adds
bindings). -/
def VisitMap.submap (m m₂ : VisitMap) : Prop :=
  ∀ k v, m.find k = some v → m₂.find k = some v

/-- Shape of every binding the flood fill adds at search zoom `z`: the key is
a valid zoom-`z` tile, accepted bindings store the tile's projected rectangle,
rejected bindings store `none`. -/
def goodBinding (p : Projector) (vp : Rect) (z : ℕ) (k : TileId)
    (v : Option Rect) : Prop :=
  k.valid ∧ k.zoom = z ∧
    ((v = some (position_of_tile p k) ∧ vp.intersects (position_of_tile p k)) ∨
      (v = none ∧ ¬vp.intersects (position_of_tile p k)))

/-- Horizontal overlap of the zoom-`z` column `i`'s screen interval with the
viewport, exactly as produced by `Rect.intersects` on `position_of_tile`
output: the tile rectangle's x-extent and the viewport's x-extent overlap on
an interval of positive width. -/
def overlapX (p : Projector) (vp : Rect) (z : ℕ) (i : ℕ) : Prop :=
  max vp.x (position_of_tile p ⟨i, 0, z⟩).x <
    min (vp.x + vp.width)
      ((position_of_tile p ⟨i, 0, z⟩).x + 2 * p.phw / (total_tiles z : ℚ))

/-- Vertical overlap of the zoom-`z` row `j`'s screen interval with the
viewport. -/
def overlapY (p : Projector) (vp : Rect) (z : ℕ) (j : ℕ) : Prop :=
  max vp.y (position_of_tile p ⟨0, j, z⟩).y <
    min (vp.y + vp.height)
      ((position_of_tile p ⟨0, j, z⟩).y + 2 * p.phw / (total_tiles z : ℚ))

end Slippery

namespace Slippery

/-! ## Helper lemmas -/

theorem clampQ_le {v lo hi : ℚ} (h : lo ≤ hi) : clampQ v lo hi ≤ hi := by
  unfold clampQ
  exact max_le h (min_le_right v hi)

theorem le_clampQ {v lo hi : ℚ} : lo ≤ clampQ v lo hi :=
  le_max_left lo (min v hi)

theorem clampQ_eq_self {v lo hi : ℚ} (h₁ : lo ≤ v) (h₂ : v ≤ hi) :
    clampQ v lo hi = v := by
  unfold clampQ
  rw [min_eq_left h₂, max_eq_right h₁]

namespace CacheMap

theorem lookup_insert_self (m : CacheMap) (id : TileId) (e : Entry) :
    (m.insert id e).lookup id = some e := by
  induction m with
  | nil => simp [insert, lookup]
  | cons kv rest ih =>
    obtain ⟨k, e₀⟩ := kv
    by_cases hk : k = id
    · simp [insert, lookup, hk]
    · simp [insert, lookup, hk, ih]

theorem lookup_eq_none_of_not_mem (m : CacheMap) (id : TileId)
    (h : id ∉ m.map Prod.fst) : m.lookup id = none := by
  induction m with
  | nil => simp [lookup]
  | cons kv rest ih =>
    obtain ⟨k, e₀⟩ := kv
    simp only [List.map_cons, List.mem_cons, not_or] at h
    have hk : ¬k = id := fun hc => h.1 hc.symm
    simp only [lookup, if_neg hk]
    exact ih h.2

theorem lookup_remove_self (m : CacheMap) (id : TileId)
    (hnd : (m.map Prod.fst).Nodup) : (m.remove id).lookup id = none := by
  induction m with
  | nil => simp [remove, lookup]
  | cons kv rest ih =>
    obtain ⟨k, e₀⟩ := kv
    simp only [List.map_cons, List.nodup_cons] at hnd
    by_cases hk : k = id
    · subst hk
      simp only [remove, if_pos rfl]
      exact lookup_eq_none_of_not_mem rest k hnd.1
    · simp [remove, lookup, hk, ih hnd.2]

end CacheMap

/-! ## Claim C7 — relative zoom adjustment -/

/-- C7 counterexample: the claim says `zoom_by` clamps, so that from zoom 25
an adjustment of `+5` must land on the boundary 26; the code instead leaves
the zoom unchanged at 25 whenever the raw sum leaves `[2, 26]`. -/
theorem zoom_by_does_not_clamp :
    Zoom.zoom_by ⟨25⟩ 5 = ⟨25⟩ ∧ clampQ (25 + 5) 2 26 = 26 := by
  constructor
  · unfold Zoom.zoom_by Zoom.tryFrom
    rw [if_pos (by norm_num)]
  · unfold clampQ
    norm_num

/-- C7 (amended): `Zoom::zoom_by` applies the adjustment when the raw sum
`z + a` lies in `[2, 26]` and otherwise leaves the zoom unchanged (it does
not clamp to the boundary). -/
theorem zoom_by_spec (z : Zoom) (a : ℚ) :
    (2 ≤ z.val + a ∧ z.val + a ≤ 26 → Zoom.zoom_by z a = ⟨z.val + a⟩) ∧
      (¬(2 ≤ z.val + a ∧ z.val + a ≤ 26) → Zoom.zoom_by z a = z) := by
  constructor
  · intro h
    unfold Zoom.zoom_by Zoom.tryFrom
    rw [if_neg (not_not_intro h)]
  · intro h
    unfold Zoom.zoom_by Zoom.tryFrom
    rw [if_pos h]

theorem zoom_by_spec_witness :
    Zoom.zoom_by ⟨16⟩ 2 = ⟨16 + 2⟩ ∧ Zoom.zoom_by ⟨25⟩ 5 = ⟨25⟩ :=
  ⟨(zoom_by_spec ⟨16⟩ 2).1 (by norm_num),
    (zoom_by_spec ⟨25⟩ 5).2 (by norm_num)⟩

/-! ## Claim C8 — constructors clamp to their valid ranges -/

/-- C8: `Mercator::new` always yields coordinates in `[-1, 1]`;
`Geographic::new` always yields a valid longitude in `[-180, 180]` and
latitude in the Web-Mercator-valid `[-85.05, 85.05]`; `Zoom::try_from`
rejects exactly the values outside `[2, 26]` and accepts both boundary
values. -/
theorem constructors_clamp (x y lon lat v : ℚ) :
    (-1 ≤ (Mercator.new x y).x ∧ (Mercator.new x y).x ≤ 1) ∧
      (-1 ≤ (Mercator.new x y).y ∧ (Mercator.new x y).y ≤ 1) ∧
      (-180 ≤ (Geographic.new lon lat).lon ∧ (Geographic.new lon lat).lon ≤ 180) ∧
      ((-8505/100) ≤ (Geographic.new lon lat).lat ∧
        (Geographic.new lon lat).lat ≤ 8505/100) ∧
      (Zoom.tryFrom v = none ↔ v < 2 ∨ 26 < v) ∧
      Zoom.tryFrom 2 = some ⟨2⟩ ∧ Zoom.tryFrom 26 = some ⟨26⟩ := by
  refine ⟨⟨le_clampQ, clampQ_le (by norm_num)⟩,
    ⟨le_clampQ, clampQ_le (by norm_num)⟩,
    ⟨le_clampQ, clampQ_le (by norm_num)⟩,
    ⟨le_clampQ, clampQ_le (by norm_num)⟩, ?_, ?_, ?_⟩
  · unfold Zoom.tryFrom
    by_cases h : 2 ≤ v ∧ v ≤ 26
    · rw [if_neg (not_not_intro h)]
      constructor
      · intro hc
        exact (Option.some_ne_none _ hc).elim
      · intro hc
        rcases hc with hc | hc
        · exact absurd h.1 (not_le.mpr hc)
        · exact absurd h.2 (not_le.mpr hc)
    · rw [if_pos h]
      constructor
      · intro _
        rcases not_and_or.mp h with hc | hc
        · exact Or.inl (not_le.mp hc)
        · exact Or.inr (not_le.mp hc)
      · intro _
        rfl
  · unfold Zoom.tryFrom
    rw [if_neg (by norm_num)]
  · unfold Zoom.tryFrom
    rw [if_neg (by norm_num)]

/-! ## Claim C2 — the per-tile cache state machine -/

/-- C2: `Load` on an absent tile creates a `Loading` entry (and on a present
tile leaves the cache map unchanged); `Loaded` moves a `Loading` tile to
`Loaded` and yields a follow-up `Allocate`; `LoadFailed` on a `Loading` entry
removes it; `Allocated` on an entry that is neither `Allocating` nor `Loaded`
leaves the entry unchanged. -/
theorem cache_state_machine (tc : TileCache) (now : ℚ) (id : TileId)
    (h : Handle) (hnd : (tc.cache.map Prod.fst).Nodup) :
    (tc.cache.lookup id = none →
      (tc.update now (.load id)).1.cache.lookup id = some (Entry.new .loading now)) ∧
      (∀ e, tc.cache.lookup id = some e →
        (tc.update now (.load id)).1.cache = tc.cache) ∧
      (∀ e, tc.cache.lookup id = some e → e.state = .loading →
        (tc.update now (.loaded id h)).1.cache.lookup id = some ⟨.loaded h, now⟩ ∧
          Followup.done (.allocate id) ∈ (tc.update now (.loaded id h)).2) ∧
      (∀ e, tc.cache.lookup id = some e → e.state = .loading →
        (tc.update now (.loadFailed id)).1.cache.lookup id = none) ∧
      (∀ e a, tc.cache.lookup id = some e →
        (∀ h₂, e.state ≠ .allocating h₂) → (∀ h₂, e.state ≠ .loaded h₂) →
        (tc.update now (.allocated id a)).1.cache.lookup id = some e) := by
  refine ⟨?_, ?_, ?_, ?_, ?_⟩
  · intro hl
    simp only [TileCache.update, hl, Option.isSome_none, Bool.false_eq_true, if_false]
    exact CacheMap.lookup_insert_self tc.cache id (Entry.new .loading now)
  · intro e hl
    simp only [TileCache.update, hl, Option.isSome_some, if_true]
  · intro e hl _
    constructor
    · simp only [TileCache.update]
      exact CacheMap.lookup_insert_self tc.cache id (Entry.new (.loaded h) now)
    · simp only [TileCache.update]
      exact List.mem_append_right _ (List.mem_singleton.mpr rfl)
  · intro e hl hstate
    obtain ⟨st, lu⟩ := e
    simp only at hstate
    subst hstate
    simp only [TileCache.update, hl]
    exact CacheMap.lookup_remove_self tc.cache id hnd
  · intro e a hl halloc hload
    obtain ⟨st, lu⟩ := e
    cases st with
    | loading => simp only [TileCache.update, hl]
    | loaded h₂ => exact absurd rfl (hload h₂)
    | allocating h₂ => exact absurd rfl (halloc h₂)
    | allocated h₂ a₂ => simp only [TileCache.update, hl]

theorem cache_state_machine_witness :
    ((TileCache.mk [] 0).update 1 (.load ⟨0, 0, 3⟩)).1.cache.lookup ⟨0, 0, 3⟩ =
        some (Entry.new .loading 1) ∧
      ((TileCache.mk [(⟨0, 0, 3⟩, ⟨.loading, 0⟩)] 0).update 1
          (.loaded ⟨0, 0, 3⟩ 7)).1.cache.lookup ⟨0, 0, 3⟩ = some ⟨.loaded 7, 1⟩ ∧
      ((TileCache.mk [(⟨0, 0, 3⟩, ⟨.loading, 0⟩)] 0).update 1
          (.loadFailed ⟨0, 0, 3⟩)).1.cache.lookup ⟨0, 0, 3⟩ = none ∧
      ((TileCache.mk [(⟨0, 0, 3⟩, ⟨.loading, 0⟩)] 0).update 1
          (.allocated ⟨0, 0, 3⟩ 9)).1.cache.lookup ⟨0, 0, 3⟩ = some ⟨.loading, 0⟩ :=
  ⟨(cache_state_machine ⟨[], 0⟩ 1 ⟨0, 0, 3⟩ 7 (by simp)).1 rfl,
    ((cache_state_machine ⟨[(⟨0, 0, 3⟩, ⟨.loading, 0⟩)], 0⟩ 1 ⟨0, 0, 3⟩ 7
        (by simp)).2.2.1 ⟨.loading, 0⟩ rfl rfl).1,
    (cache_state_machine ⟨[(⟨0, 0, 3⟩, ⟨.loading, 0⟩)], 0⟩ 1 ⟨0, 0, 3⟩ 7
        (by simp)).2.2.2.1 ⟨.loading, 0⟩ rfl rfl,
    (cache_state_machine ⟨[(⟨0, 0, 3⟩, ⟨.loading, 0⟩)], 0⟩ 1 ⟨0, 0, 3⟩ 7
        (by simp)).2.2.2.2 ⟨.loading, 0⟩ 9 rfl
      (fun h₂ hc => TState.noConfusion hc) (fun h₂ hc => TState.noConfusion hc)⟩

/-! ## Claim C4 — prune never removes protected entries -/

theorem pruneRetain_mem (start_time : ℚ) (target : ℕ) (l : CacheMap)
    (count : ℕ) (id : TileId) (e : Entry) (hmem : (id, e) ∈ l)
    (hprot : e.state = .loading ∨ (∃ h₂, e.state = .allocating h₂) ∨ id.zoom < 6) :
    (id, e) ∈ pruneRetain start_time target l count := by
  induction l generalizing count with
  | nil => cases hmem
  | cons kv rest ih =>
    rcases List.mem_cons.mp hmem with heq | htail
    · subst heq
      show (id, e) ∈ pruneRetain start_time target ((id, e) :: rest) count
      unfold pruneRetain
      by_cases hcount : target ≤ count
      · rw [if_pos hcount]
        exact List.mem_cons_self _ _
      · rw [if_neg hcount]
        have hretain :
            (match e.state with
              | .loading => true
              | .allocating _ => true
              | _ =>
                if id.zoom < 6 then true
                else
                  match (if e.last_used ≤ start_time
                         then some (start_time - e.last_used) else none) with
                  | none => true
                  | some diff => decide (diff < PRUNE_TIME)) = true := by
          rcases hprot with hp | ⟨h₂, hp⟩ | hp
          · rw [hp]
          · rw [hp]
          · cases e.state with
            | loading => rfl
            | allocating h₃ => rfl
            | loaded h₃ => simp only [if_pos hp]
            | allocated h₃ a₃ => simp only [if_pos hp]
        rw [hretain]
        simp only [if_true]
        exact List.mem_cons_self _ _
    · obtain ⟨k, e₀⟩ := kv
      unfold pruneRetain
      by_cases hcount : target ≤ count
      · rw [if_pos hcount]
        exact List.mem_cons_of_mem _ (ih count htail)
      · rw [if_neg hcount]
        by_cases hret :
            (match e₀.state with
              | .loading => true
              | .allocating _ => true
              | _ =>
                if k.zoom < 6 then true
                else
                  match (if e₀.last_used ≤ start_time
                         then some (start_time - e₀.last_used) else none) with
                  | none => true
                  | some diff => decide (diff < PRUNE_TIME)) = true
        · rw [hret]
          simp only [if_true]
          exact List.mem_cons_of_mem _ (ih count htail)
        · rw [Bool.not_eq_true] at hret
          rw [hret]
          simp only [Bool.false_eq_true, if_false]
          exact ih (count + 1) htail

/-- C4: processing `Prune` never removes an entry whose zoom is below 6 and
never removes an entry in `Loading` or `Allocating` state: any such entry
present before the prune is still present, unchanged, afterwards. -/
theorem prune_preserves_protected (tc : TileCache) (now : ℚ) (id : TileId)
    (e : Entry) (hmem : (id, e) ∈ tc.cache)
    (hprot : e.state = .loading ∨ (∃ h₂, e.state = .allocating h₂) ∨ id.zoom < 6) :
    (id, e) ∈ (tc.update now .prune).1.cache := by
  simp only [TileCache.update]
  exact pruneRetain_mem now _ tc.cache 0 id e hmem hprot

theorem prune_preserves_protected_witness :
    (⟨0, 0, 9⟩, ⟨.loading, 0⟩) ∈
        ((TileCache.mk [(⟨0, 0, 9⟩, ⟨.loading, 0⟩), (⟨1, 1, 3⟩, ⟨.loaded 5, 0⟩)] 0).update
          100 .prune).1.cache ∧
      (⟨1, 1, 3⟩, ⟨.loaded 5, 0⟩) ∈
        ((TileCache.mk [(⟨0, 0, 9⟩, ⟨.loading, 0⟩), (⟨1, 1, 3⟩, ⟨.loaded 5, 0⟩)] 0).update
          100 .prune).1.cache :=
  ⟨prune_preserves_protected ⟨[(⟨0, 0, 9⟩, ⟨.loading, 0⟩), (⟨1, 1, 3⟩, ⟨.loaded 5, 0⟩)], 0⟩
      100 ⟨0, 0, 9⟩ ⟨.loading, 0⟩ (List.mem_cons_self _ _) (Or.inl rfl),
    prune_preserves_protected ⟨[(⟨0, 0, 9⟩, ⟨.loading, 0⟩), (⟨1, 1, 3⟩, ⟨.loaded 5, 0⟩)], 0⟩
      100 ⟨1, 1, 3⟩ ⟨.loaded 5, 0⟩ (List.mem_cons_of_mem _ (List.mem_cons_self _ _))
      (Or.inr (Or.inr (by norm_num)))⟩

/-! ## Claim C5 — stale fetch results are *not* ignored -/

/-- C5 counterexample: the claim says a `Loaded` message for a tile with no
cache entry leaves the cache unchanged; in the code the `Loaded` arm inserts
unconditionally (`tile_cache.rs` lines 219–225), so a stale result re-creates
the entry. -/
theorem stale_loaded_not_ignored :
    (TileCache.new 0).cache.lookup ⟨0, 0, 5⟩ = none ∧
      ((TileCache.new 0).update 1 (.loaded ⟨0, 0, 5⟩ 7)).1.cache.lookup ⟨0, 0, 5⟩ =
        some ⟨.loaded 7, 1⟩ :=
  ⟨rfl, rfl⟩

/-- C5 (amended): processing `Loaded` for a tile with no cache entry (e.g.
pruned while the fetch was in flight) re-creates the entry in `Loaded` state
and still yields the follow-up `Allocate`, rather than leaving the cache
unchanged. -/
theorem stale_loaded_reinserts (tc : TileCache) (now : ℚ) (id : TileId)
    (h : Handle) (habsent : tc.cache.lookup id = none) :
    (tc.update now (.loaded id h)).1.cache.lookup id = some ⟨.loaded h, now⟩ ∧
      Followup.done (.allocate id) ∈ (tc.update now (.loaded id h)).2 := by
  constructor
  · simp only [TileCache.update]
    exact CacheMap.lookup_insert_self tc.cache id (Entry.new (.loaded h) now)
  · simp only [TileCache.update]
    exact List.mem_append_right _ (List.mem_singleton.mpr rfl)

theorem stale_loaded_reinserts_witness :
    ((TileCache.new 0).update 1 (.loaded ⟨0, 0, 5⟩ 7)).1.cache.lookup ⟨0, 0, 5⟩ =
        some ⟨.loaded 7, 1⟩ ∧
      Followup.done (.allocate ⟨0, 0, 5⟩) ∈
        ((TileCache.new 0).update 1 (.loaded ⟨0, 0, 5⟩ 7)).2 :=
  stale_loaded_reinserts (TileCache.new 0) 1 ⟨0, 0, 5⟩ 7 rfl

/-! ## Claim C6 — allocation grace period -/

/-- C6 counterexample: the claim says every successful allocation yields a
delayed `Deallocate` follow-up; for tiles at zoom ≤ 1 the code keeps the
allocation forever (`if id.zoom() > 1` guard, `tile_cache.rs` line 268):
here a zoom-0 tile transitions to `Allocated` but the returned task batch is
empty. -/
theorem allocated_low_zoom_no_deallocate :
    ((TileCache.mk [(⟨0, 0, 0⟩, ⟨.allocating 7, 0⟩)] 0).update 1
          (.allocated ⟨0, 0, 0⟩ 9)).1.cache.lookup ⟨0, 0, 0⟩ =
        some ⟨.allocated 7 9, 1⟩ ∧
      ((TileCache.mk [(⟨0, 0, 0⟩, ⟨.allocating 7, 0⟩)] 0).update 1
          (.allocated ⟨0, 0, 0⟩ 9)).2 = [] :=
  ⟨rfl, rfl⟩

/-- C6 (amended): `Allocated` on an entry in `Allocating` or `Loaded` state
moves it to `Allocated` and, for tiles with zoom above 1, yields a delayed
(100 ms) `Deallocate` follow-up; tiles at zoom ≤ 1 are kept allocated with no
deallocation follow-up.  Processing `Deallocate` on an `Allocated` entry
returns it to `Loaded`, retaining the image-bytes handle. -/
theorem allocated_grace_period (tc : TileCache) (now : ℚ) (id : TileId)
    (a : Allocation) (e : Entry) (h₂ : Handle)
    (hl : tc.cache.lookup id = some e)
    (hstate : e.state = .allocating h₂ ∨ e.state = .loaded h₂) :
    ((tc.update now (.allocated id a)).1.cache.lookup id =
        some ⟨.allocated h₂ a, now⟩ ∧
      (1 < id.zoom →
        Followup.delayed 100 (.deallocate id) ∈ (tc.update now (.allocated id a)).2) ∧
      (id.zoom ≤ 1 → ∀ ms m, Followup.delayed ms m ∉ (tc.update now (.allocated id a)).2)) ∧
      (∀ (tc₂ : TileCache) (lu : ℚ) (a₂ : Allocation),
        tc₂.cache.lookup id = some ⟨.allocated h₂ a₂, lu⟩ →
        (tc₂.update now (.deallocate id)).1.cache.lookup id = some ⟨.loaded h₂, lu⟩) := by
  obtain ⟨st, lu⟩ := e
  have hmain :
      (tc.update now (.allocated id a)).1.cache = tc.cache.insert id ⟨.allocated h₂ a, now⟩ ∧
        (tc.update now (.allocated id a)).2 =
          (if PRUNE_THRESH < tc.cache.length ∧ 5 < now - tc.cleanup_timer
            then [Followup.done .prune] else []) ++
            (if 1 < id.zoom then [Followup.delayed 100 (.deallocate id)] else []) := by
    rcases hstate with hs | hs <;> simp only at hs <;> subst hs <;>
      simp only [TileCache.update, hl] <;> exact ⟨trivial, trivial⟩
  refine ⟨⟨?_, ?_, ?_⟩, ?_⟩
  · rw [hmain.1]
    exact CacheMap.lookup_insert_self tc.cache id ⟨.allocated h₂ a, now⟩
  · intro hz
    rw [hmain.2, if_pos hz]
    exact List.mem_append_right _ (List.mem_singleton.mpr rfl)
  · intro hz ms m
    rw [hmain.2, if_neg (not_lt.mpr hz)]
    intro hmem
    rcases List.mem_append.mp hmem with hmem | hmem
    · split at hmem
      · rcases List.mem_singleton.mp hmem with hc
        cases hc
      · cases hmem
    · cases hmem
  · intro tc₂ lu₂ a₂ hl₂
    simp only [TileCache.update, hl₂]
    exact CacheMap.lookup_insert_self tc₂.cache id ⟨.loaded h₂, lu₂⟩

theorem allocated_grace_period_witness :
    (((TileCache.mk [(⟨0, 0, 4⟩, ⟨.allocating 7, 0⟩)] 0).update 1
          (.allocated ⟨0, 0, 4⟩ 9)).1.cache.lookup ⟨0, 0, 4⟩ =
        some ⟨.allocated 7 9, 1⟩ ∧
      Followup.delayed 100 (.deallocate ⟨0, 0, 4⟩) ∈
        ((TileCache.mk [(⟨0, 0, 4⟩, ⟨.allocating 7, 0⟩)] 0).update 1
          (.allocated ⟨0, 0, 4⟩ 9)).2) ∧
      ((TileCache.mk [(⟨0, 0, 4⟩, ⟨.allocated 7 9, 2⟩)] 0).update 3
          (.deallocate ⟨0, 0, 4⟩)).1.cache.lookup ⟨0, 0, 4⟩ = some ⟨.loaded 7, 2⟩ := by
  have h := allocated_grace_period ⟨[(⟨0, 0, 4⟩, ⟨.allocating 7, 0⟩)], 0⟩ 1 ⟨0, 0, 4⟩ 9
    ⟨.allocating 7, 0⟩ 7 rfl (Or.inl rfl)
  exact ⟨⟨h.1.1, h.1.2.1 (by norm_num)⟩,
    h.2 ⟨[(⟨0, 0, 4⟩, ⟨.allocated 7 9, 2⟩)], 0⟩ 2 9 rfl⟩

/-! ## Claim C9 — panic-freedom of the core -/

/-- C9: the claim (from the spec's propagation policy) says nothing in the
core panics on recoverable conditions, explicitly including "Prune on a cache
of any size" and "tile coordinate construction for any zoom input".  The code
violates it: the `Prune` arm computes `start_size - PRUNE_THRESH` in `usize`
(`tile_cache.rs` line 176), which underflows whenever fewer than 1024 entries
are cached — a panic in debug builds; in release builds it wraps to ≈2^64 so
the "return to the threshold" budget is effectively unlimited and a prune of
a 1-entry cache removes its only (stale, unprotected) entry.  Likewise
`TileId::new`, via `2u32.pow(zoom)`, overflows `u32` for zoom ≥ 32. -/
theorem prune_target_underflows :
    usize_checked_sub (TileCache.new 0).cache.length PRUNE_THRESH = none ∧
      usize_wrapping_sub 0 PRUNE_THRESH = 2 ^ 64 - 1024 ∧
      u32_checked_pow2 32 = none ∧
      ((TileCache.mk [(⟨0, 0, 6⟩, ⟨.loaded 7, 0⟩)] 0).update 100 .prune).1.cache = [] := by
  refine ⟨rfl, ?_, ?_, ?_⟩
  · unfold usize_wrapping_sub PRUNE_THRESH
    norm_num [Int.toNat_ofNat]
    rfl
  · unfold u32_checked_pow2
    norm_num
  · simp [TileCache.update, pruneRetain, usize_wrapping_sub, PRUNE_THRESH, PRUNE_TIME]
    norm_num

/-! ## Claim C10 — draw-cache iteration order -/

theorem keys_flatMap_groupAt (maps : List (ℕ × List ((ℕ × ℕ) × DrawData)))
    (hnd : (maps.map Prod.fst).Nodup) :
    (maps.map Prod.fst).flatMap
        (fun z => (DrawCache.groupAt maps z).map Prod.snd) =
      maps.flatMap fun pr => pr.2.map Prod.snd := by
  induction maps with
  | nil => rfl
  | cons kv rest ih =>
    obtain ⟨k, g⟩ := kv
    simp only [List.map_cons, List.nodup_cons] at hnd
    simp only [List.map_cons, List.flatMap_cons]
    have hhead : DrawCache.groupAt ((k, g) :: rest) k = g := by
      simp [DrawCache.groupAt]
    have htail : ∀ z ∈ rest.map Prod.fst,
        (DrawCache.groupAt ((k, g) :: rest) z).map Prod.snd =
          (DrawCache.groupAt rest z).map Prod.snd := by
      intro z hz
      have hkz : ¬k = z := fun hc => hnd.1 (hc ▸ hz)
      simp [DrawCache.groupAt, hkz]
    rw [hhead, List.flatMap_congr htail, ih hnd.2]

/-- C10: `iter_tiles` yields exactly the stored placements (a permutation of
them), emitted as the concatenation of the per-zoom groups taken in ascending
zoom order, so lower-zoom fallback tiles are emitted (and hence drawn)
first. -/
theorem iter_tiles_grouped_ascending (dc : DrawCache)
    (hnd : (dc.maps.map Prod.fst).Nodup) :
    dc.iter_tiles.Perm dc.storedData ∧
      ∃ zs : List ℕ, zs.Sorted (· ≤ ·) ∧ zs.Perm (dc.maps.map Prod.fst) ∧
        dc.iter_tiles =
          zs.flatMap fun z => (DrawCache.groupAt dc.maps z).map Prod.snd := by
  have hperm : List.Perm ((dc.maps.map Prod.fst).mergeSort) (dc.maps.map Prod.fst) :=
    List.mergeSort_perm _ _
  constructor
  · unfold DrawCache.iter_tiles DrawCache.storedData
    exact (hperm.flatMap_right _).trans
      (List.Perm.of_eq (keys_flatMap_groupAt dc.maps hnd))
  · refine ⟨_, List.sorted_mergeSort' (dc.maps.map Prod.fst), hperm, rfl⟩

theorem projector_pixel_screen_round_trip (p : Projector) (q : Pt) :
    p.screen_space_into_pixel_space (p.pixel_space_into_screen_space q) = q := by
  obtain ⟨qx, qy⟩ := q
  unfold Projector.screen_space_into_pixel_space Projector.pixel_space_into_screen_space
    Pt.add Pt.sub
  simp only [Pt.mk.injEq]
  constructor <;> ring

theorem projector_screen_pixel_round_trip (p : Projector) (pt : Pt) :
    p.pixel_space_into_screen_space (p.screen_space_into_pixel_space pt) = pt := by
  obtain ⟨ptx, pty⟩ := pt
  unfold Projector.screen_space_into_pixel_space Projector.pixel_space_into_screen_space
    Pt.add Pt.sub
  simp only [Pt.mk.injEq]
  constructor <;> ring

/-- C3 counterexample: the claim asserts the screen→Mercator→screen round
trip for *every* on-screen point within bounds.  With the viewpoint on the
map's south edge (`Mercator.new 0 1`, a valid position) at valid zoom 2
(`pixels_half_width = 1024`) and bounds 800×600, the in-bounds point
`(400, 500)` maps to pixel-space `(0, 1224)`, beyond the south edge of the
world map (`y = 1024`); `Mercator::from_pixel_space` clamps it to `y = 1`,
and converting back lands on `(400, 300)` instead of `(400, 500)`. -/
theorem screen_round_trip_fails_at_map_edge :
    pixelsHalfWidth 2 = 1024 ∧
      ((0 : ℚ) ≤ 400 ∧ (400 : ℚ) ≤ 800 ∧ (0 : ℚ) ≤ 500 ∧ (500 : ℚ) ≤ 600) ∧
      Projector.mercator_into_screen_space
          ⟨Mercator.new 0 1, pixelsHalfWidth 2, ⟨0, 0, 800, 600⟩⟩
          (Projector.screen_space_into_mercator
            ⟨Mercator.new 0 1, pixelsHalfWidth 2, ⟨0, 0, 800, 600⟩⟩ ⟨400, 500⟩) =
        ⟨400, 300⟩ ∧
      (⟨400, 300⟩ : Pt) ≠ ⟨400, 500⟩ := by
  refine ⟨?_, by norm_num, ?_, ?_⟩
  · unfold pixelsHalfWidth BASE_SIZE
    norm_num
  · unfold Projector.mercator_into_screen_space Projector.screen_space_into_mercator
      Projector.pixel_space_into_screen_space Projector.screen_space_into_pixel_space
      Projector.mercator_into_pixel_space Projector.pixel_space_into_mercator
      Projector.viewpointPixelSpace Mercator.into_pixel_space Mercator.from_pixel_space
      Mercator.new clampQ pixelsHalfWidth BASE_SIZE roundCeilPt roundCeil
      Rect.center Pt.add Pt.sub
    simp only [Pt.mk.injEq]
    norm_num
  · intro hc
    rw [Pt.mk.injEq] at hc
    norm_num at hc

/-- C3 (amended): the Mercator→screen→Mercator round trip is exact for every
Mercator value (whose components lie in the invariant range `[-1, 1]`) and
every viewpoint and bounds with positive pixel scale; the converse
screen→Mercator→screen round trip is exact provided the point's pixel-space
image lies within the world map extent `[-phw, phw]` on both axes — on-screen
points beyond the map edge are clamped onto the edge and do not round-trip.
(Floats are idealised as exact rationals, so "within floating tolerance"
becomes exact equality.) -/
theorem projector_round_trip (p : Projector) (hphw : 0 < p.phw) :
    (∀ m : Mercator, -1 ≤ m.x → m.x ≤ 1 → -1 ≤ m.y → m.y ≤ 1 →
      p.screen_space_into_mercator (p.mercator_into_screen_space m) = m) ∧
      (∀ pt : Pt,
        -p.phw ≤ (p.screen_space_into_pixel_space pt).x →
        (p.screen_space_into_pixel_space pt).x ≤ p.phw →
        -p.phw ≤ (p.screen_space_into_pixel_space pt).y →
        (p.screen_space_into_pixel_space pt).y ≤ p.phw →
        p.mercator_into_screen_space (p.screen_space_into_mercator pt) = pt) := by
  have hne : p.phw ≠ 0 := ne_of_gt hphw
  constructor
  · intro m hx1 hx2 hy1 hy2
    obtain ⟨mx, my⟩ := m
    unfold Projector.screen_space_into_mercator Projector.mercator_into_screen_space
    rw [projector_pixel_screen_round_trip]
    unfold Projector.pixel_space_into_mercator Projector.mercator_into_pixel_space
      Mercator.from_pixel_space Mercator.into_pixel_space Mercator.new
    simp only [Mercator.mk.injEq]
    constructor
    · rw [mul_div_cancel_right₀ mx hne]
      exact clampQ_eq_self hx1 hx2
    · rw [mul_div_cancel_right₀ my hne]
      exact clampQ_eq_self hy1 hy2
  · intro pt hx1 hx2 hy1 hy2
    unfold Projector.screen_space_into_mercator Projector.mercator_into_screen_space
    unfold Projector.pixel_space_into_mercator Projector.mercator_into_pixel_space
      Mercator.from_pixel_space Mercator.into_pixel_space Mercator.new
    have hdx : clampQ ((p.screen_space_into_pixel_space pt).x / p.phw) (-1) 1 =
        (p.screen_space_into_pixel_space pt).x / p.phw :=
      clampQ_eq_self (by rw [le_div_iff₀ hphw]; linarith) ((div_le_one hphw).mpr hx2)
    have hdy : clampQ ((p.screen_space_into_pixel_space pt).y / p.phw) (-1) 1 =
        (p.screen_space_into_pixel_space pt).y / p.phw :=
      clampQ_eq_self (by rw [le_div_iff₀ hphw]; linarith) ((div_le_one hphw).mpr hy2)
    simp only [hdx, hdy, div_mul_cancel₀ _ hne]
    have hq : (⟨(p.screen_space_into_pixel_space pt).x,
        (p.screen_space_into_pixel_space pt).y⟩ : Pt) = p.screen_space_into_pixel_space pt := by
      obtain ⟨qx, qy⟩ := p.screen_space_into_pixel_space pt
      rfl
    rw [hq]
    exact projector_screen_pixel_round_trip p pt

theorem projector_round_trip_witness :
    (0 : ℚ) < pixelsHalfWidth 4 ∧
      Projector.screen_space_into_mercator
          ⟨Mercator.new 0 0, pixelsHalfWidth 4, ⟨0, 0, 800, 600⟩⟩
          (Projector.mercator_into_screen_space
            ⟨Mercator.new 0 0, pixelsHalfWidth 4, ⟨0, 0, 800, 600⟩⟩
            ⟨1/4, -1/8⟩) = ⟨1/4, -1/8⟩ := by
  have hphw : (0 : ℚ) < pixelsHalfWidth 4 := by
    unfold pixelsHalfWidth BASE_SIZE
    norm_num
  exact ⟨hphw,
    (projector_round_trip ⟨Mercator.new 0 0, pixelsHalfWidth 4, ⟨0, 0, 800, 600⟩⟩ hphw).1
      ⟨1/4, -1/8⟩ (by norm_num) (by norm_num) (by norm_num) (by norm_num)⟩

theorem iter_tiles_grouped_ascending_witness :
    (DrawCache.iter_tiles ⟨[(3, [((0, 0), ⟨1, ⟨0, 0⟩, 1, 1⟩)]),
          (1, [((5, 5), ⟨2, ⟨0, 0⟩, 2, 2⟩)])]⟩).Perm
        (DrawCache.storedData ⟨[(3, [((0, 0), ⟨1, ⟨0, 0⟩, 1, 1⟩)]),
          (1, [((5, 5), ⟨2, ⟨0, 0⟩, 2, 2⟩)])]⟩) ∧
      ∃ zs : List ℕ, zs.Sorted (· ≤ ·) ∧
        zs.Perm ([(3, [((0, 0), (⟨1, ⟨0, 0⟩, 1, 1⟩ : DrawData))]),
          (1, [((5, 5), ⟨2, ⟨0, 0⟩, 2, 2⟩)])].map Prod.fst) ∧
        DrawCache.iter_tiles ⟨[(3, [((0, 0), ⟨1, ⟨0, 0⟩, 1, 1⟩)]),
            (1, [((5, 5), ⟨2, ⟨0, 0⟩, 2, 2⟩)])]⟩ =
          zs.flatMap fun z =>
            (DrawCache.groupAt [(3, [((0, 0), ⟨1, ⟨0, 0⟩, 1, 1⟩)]),
              (1, [((5, 5), ⟨2, ⟨0, 0⟩, 2, 2⟩)])] z).map Prod.snd :=
  iter_tiles_grouped_ascending
    ⟨[(3, [((0, 0), ⟨1, ⟨0, 0⟩, 1, 1⟩)]), (1, [((5, 5), ⟨2, ⟨0, 0⟩, 2, 2⟩)])]⟩
    (by simp)

end Slippery

namespace Slippery

/-! ## Claim C1 — flood-fill visibility search: auxiliary lemmas -/

namespace VisitMap

theorem find_cons_self (m : VisitMap) (k : TileId) (v : Option Rect) :
    find ((k, v) :: m) k = some v := by
  simp [find]

theorem find_cons_ne (m : VisitMap) (k k₂ : TileId) (v : Option Rect)
    (h : k ≠ k₂) : find ((k, v) :: m) k₂ = find m k₂ := by
  simp [find, h]

theorem find_mem {m : VisitMap} {k : TileId} {v : Option Rect}
    (h : find m k = some v) : (k, v) ∈ m := by
  induction m with
  | nil => cases h
  | cons kv rest ih =>
    obtain ⟨k₀, v₀⟩ := kv
    by_cases hk : k₀ = k
    · subst hk
      rw [find_cons_self] at h
      cases h
      exact List.mem_cons_self _ _
    · rw [show find ((k₀, v₀) :: rest) k = find rest k by simp [find, hk]] at h
      exact List.mem_cons_of_mem _ (ih h)

theorem find_eq_none_iff (m : VisitMap) (k : TileId) :
    find m k = none ↔ k ∉ m.map Prod.fst := by
  induction m with
  | nil => simp [find]
  | cons kv rest ih =>
    obtain ⟨k₀, v₀⟩ := kv
    by_cases hk : k₀ = k
    · subst hk
      simp [find]
    · simp only [find, if_neg hk, ih, List.map_cons, List.mem_cons]
      constructor
      · intro h hc
        rcases hc with hc | hc
        · exact hk hc.symm
        · exact h hc
      · intro h hc
        exact h (Or.inr hc)

theorem submap_refl (m : VisitMap) : m.submap m := fun _ _ h => h

theorem submap_trans {m₁ m₂ m₃ : VisitMap} (h₁ : m₁.submap m₂)
    (h₂ : m₂.submap m₃) : m₁.submap m₃ :=
  fun k v h => h₂ k v (h₁ k v h)

theorem submap_cons (m : VisitMap) (k : TileId) (v : Option Rect)
    (h : find m k = none) : m.submap ((k, v) :: m) := by
  intro k₂ v₂ hfind
  have hne : k ≠ k₂ := fun hc => by
    rw [hc] at h
    rw [h] at hfind
    cases hfind
  rw [find_cons_ne m k k₂ v hne]
  exact hfind

theorem submap_isSome {m m₂ : VisitMap} (h : m.submap m₂) (k : TileId)
    (hs : (find m k).isSome) : (find m₂ k).isSome := by
  obtain ⟨v, hv⟩ := Option.isSome_iff_exists.mp hs
  rw [h k v hv]
  rfl

end VisitMap

theorem neighbors_valid_zoom {t : TileId} (ht : t.valid) :
    ∀ n ∈ t.neighbors.reduceOption, n.valid ∧ n.zoom = t.zoom := by
  intro n hn
  obtain ⟨htx, hty⟩ := ht
  have htot : 1 ≤ total_tiles t.zoom := Nat.one_le_two_pow
  simp only [TileId.neighbors, TileId.north, TileId.east, TileId.south, TileId.west,
    List.reduceOption_mem_iff] at hn
  simp only [List.mem_cons, List.not_mem_nil, or_false] at hn
  rcases hn with h | h | h | h
  · split at h
    · cases h
    · cases h
      exact ⟨⟨htx, show t.y - 1 < total_tiles t.zoom by omega⟩, rfl⟩
  · split at h
    · cases h
      exact ⟨⟨show t.x + 1 < total_tiles t.zoom by omega, hty⟩, rfl⟩
    · cases h
  · split at h
    · cases h
      exact ⟨⟨htx, show t.y + 1 < total_tiles t.zoom by omega⟩, rfl⟩
    · cases h
  · split at h
    · cases h
    · cases h
      exact ⟨⟨show t.x - 1 < total_tiles t.zoom by omega, hty⟩, rfl⟩

end Slippery

namespace Slippery

/-! ### Monotonicity of the flood fill -/

theorem floodInner_fold_submap (p : Projector) (vp : Rect) (fuel : ℕ)
    (hstep : ∀ t m, VisitMap.submap m (floodInner p vp fuel t m)) :
    ∀ (l : List TileId) (m : VisitMap),
      VisitMap.submap m (l.foldl (fun acc n => floodInner p vp fuel n acc) m) := by
  intro l
  induction l with
  | nil =>
    intro m
    exact VisitMap.submap_refl m
  | cons n rest ih =>
    intro m
    simp only [List.foldl_cons]
    exact VisitMap.submap_trans (hstep n m) (ih (floodInner p vp fuel n m))

theorem floodInner_submap (p : Projector) (vp : Rect) (fuel : ℕ) :
    ∀ (t : TileId) (m : VisitMap), VisitMap.submap m (floodInner p vp fuel t m) := by
  induction fuel with
  | zero =>
    intro t m
    exact VisitMap.submap_refl m
  | succ fuel ih =>
    intro t m
    simp only [floodInner]
    cases hfind : VisitMap.find m t with
    | some v =>
      exact VisitMap.submap_refl m
    | none =>
      by_cases hint : vp.intersects (position_of_tile p t)
      · rw [if_pos hint]
        exact VisitMap.submap_trans
          (VisitMap.submap_cons m t (some (position_of_tile p t)) hfind)
          (floodInner_fold_submap p vp fuel ih _ _)
      · rw [if_neg hint]
        exact VisitMap.submap_cons m t none hfind

theorem floodInner_processed (p : Projector) (vp : Rect) (fuel : ℕ)
    (t : TileId) (m : VisitMap) :
    (VisitMap.find (floodInner p vp (fuel + 1) t m) t).isSome := by
  simp only [floodInner]
  cases hfind : VisitMap.find m t with
  | some v =>
    rw [hfind]
    rfl
  | none =>
    by_cases hint : vp.intersects (position_of_tile p t)
    · rw [if_pos hint]
      refine VisitMap.submap_isSome
        (floodInner_fold_submap p vp fuel (floodInner_submap p vp fuel) _ _) t ?_
      rw [VisitMap.find_cons_self]
      rfl
    · rw [if_neg hint]
      rw [VisitMap.find_cons_self]
      rfl

/-! ### Soundness of the bindings the flood fill creates -/

theorem floodInner_fold_sound (p : Projector) (vp : Rect) (z : ℕ) (fuel : ℕ)
    (hstep : ∀ t, t.valid → t.zoom = z → ∀ m k v,
      VisitMap.find (floodInner p vp fuel t m) k = some v →
      VisitMap.find m k = some v ∨ goodBinding p vp z k v) :
    ∀ (l : List TileId), (∀ n ∈ l, n.valid ∧ n.zoom = z) →
      ∀ (m : VisitMap) (k : TileId) (v : Option Rect),
        VisitMap.find (l.foldl (fun acc n => floodInner p vp fuel n acc) m) k = some v →
        VisitMap.find m k = some v ∨ goodBinding p vp z k v := by
  intro l
  induction l with
  | nil =>
    intro _ m k v h
    exact Or.inl h
  | cons n rest ih =>
    intro hl m k v h
    simp only [List.foldl_cons] at h
    rcases ih (fun a ha => hl a (List.mem_cons_of_mem _ ha)) _ k v h with h₂ | h₂
    · exact hstep n (hl n (List.mem_cons_self _ _)).1 (hl n (List.mem_cons_self _ _)).2
        m k v h₂
    · exact Or.inr h₂

theorem floodInner_sound (p : Projector) (vp : Rect) (z : ℕ) (fuel : ℕ) :
    ∀ (t : TileId), t.valid → t.zoom = z →
      ∀ (m : VisitMap) (k : TileId) (v : Option Rect),
        VisitMap.find (floodInner p vp fuel t m) k = some v →
        VisitMap.find m k = some v ∨ goodBinding p vp z k v := by
  induction fuel with
  | zero =>
    intro t _ _ m k v h
    exact Or.inl h
  | succ fuel ih =>
    intro t htv htz m k v h
    simp only [floodInner] at h
    cases hfind : VisitMap.find m t with
    | some v₀ =>
      rw [hfind] at h
      exact Or.inl h
    | none =>
      rw [hfind] at h
      by_cases hint : vp.intersects (position_of_tile p t)
      · rw [if_pos hint] at h
        have hl : ∀ n ∈ t.neighbors.reduceOption, n.valid ∧ n.zoom = z := by
          intro n hn
          obtain ⟨h₁, h₂⟩ := neighbors_valid_zoom htv n hn
          exact ⟨h₁, h₂.trans htz⟩
        rcases floodInner_fold_sound p vp z fuel ih _ hl _ k v h with h₂ | h₂
        · by_cases hk : t = k
          · subst hk
            rw [VisitMap.find_cons_self] at h₂
            cases h₂
            exact Or.inr ⟨htv, htz, Or.inl ⟨rfl, hint⟩⟩
          · rw [VisitMap.find_cons_ne m t k _ hk] at h₂
            exact Or.inl h₂
        · exact Or.inr h₂
      · rw [if_neg hint] at h
        by_cases hk : t = k
        · subst hk
          rw [VisitMap.find_cons_self] at h
          cases h
          exact Or.inr ⟨htv, htz, Or.inr ⟨rfl, hint⟩⟩
        · rw [VisitMap.find_cons_ne m t k _ hk] at h
          exact Or.inl h

/-! ### The flood fill never records a tile twice -/

theorem floodInner_fold_nodup (p : Projector) (vp : Rect) (fuel : ℕ)
    (hstep : ∀ t m, (m.map Prod.fst).Nodup →
      ((floodInner p vp fuel t m).map Prod.fst).Nodup) :
    ∀ (l : List TileId) (m : VisitMap), (m.map Prod.fst).Nodup →
      ((l.foldl (fun acc n => floodInner p vp fuel n acc) m).map Prod.fst).Nodup := by
  intro l
  induction l with
  | nil =>
    intro m hm
    exact hm
  | cons n rest ih =>
    intro m hm
    simp only [List.foldl_cons]
    exact ih _ (hstep n m hm)

theorem floodInner_nodup (p : Projector) (vp : Rect) (fuel : ℕ) :
    ∀ (t : TileId) (m : VisitMap), (m.map Prod.fst).Nodup →
      ((floodInner p vp fuel t m).map Prod.fst).Nodup := by
  induction fuel with
  | zero =>
    intro t m hm
    exact hm
  | succ fuel ih =>
    intro t m hm
    simp only [floodInner]
    cases hfind : VisitMap.find m t with
    | some v =>
      exact hm
    | none =>
      have hcons : ∀ v₀ : Option Rect, (((t, v₀) :: m).map Prod.fst).Nodup := by
        intro v₀
        simp only [List.map_cons, List.nodup_cons]
        exact ⟨(VisitMap.find_eq_none_iff m t).mp hfind, hm⟩
      by_cases hint : vp.intersects (position_of_tile p t)
      · rw [if_pos hint]
        exact floodInner_fold_nodup p vp fuel ih _ _ (hcons _)
      · rw [if_neg hint]
        exact hcons none

end Slippery

namespace Slippery

/-! ### The termination measure of the flood fill -/

theorem visitedZ_subset_grid (z : ℕ) (m : VisitMap) : visitedZ z m ⊆ gridZ z :=
  Finset.filter_subset _ _

theorem visitedZ_mono (z : ℕ) {m m₂ : VisitMap} (h : m.submap m₂) :
    visitedZ z m ⊆ visitedZ z m₂ := by
  intro pr hpr
  rw [visitedZ, Finset.mem_filter] at hpr ⊢
  exact ⟨hpr.1, VisitMap.submap_isSome h _ hpr.2⟩

theorem measureZ_le_of_submap (z : ℕ) {m m₂ : VisitMap} (h : m.submap m₂) :
    measureZ z m₂ ≤ measureZ z m := by
  unfold measureZ
  have := Finset.card_le_card (visitedZ_mono z h)
  omega

theorem visitedZ_cons (z : ℕ) (t : TileId) (v : Option Rect) (m : VisitMap)
    (htv : t.valid) (htz : t.zoom = z) :
    visitedZ z ((t, v) :: m) = insert (t.x, t.y) (visitedZ z m) := by
  have hteq : (⟨t.x, t.y, z⟩ : TileId) = t := by
    cases t
    cases htz
    rfl
  ext pr
  rw [Finset.mem_insert, visitedZ, visitedZ, Finset.mem_filter, Finset.mem_filter]
  by_cases hpr : pr = (t.x, t.y)
  · subst hpr
    have hgrid : (t.x, t.y) ∈ gridZ z := by
      rw [gridZ, Finset.mem_product, Finset.mem_range, Finset.mem_range]
      cases htz
      exact htv
    have hsome : (VisitMap.find ((t, v) :: m) ⟨t.x, t.y, z⟩).isSome := by
      rw [hteq, VisitMap.find_cons_self]
      rfl
    simp [hgrid, hsome]
  · have hne : t ≠ (⟨pr.1, pr.2, z⟩ : TileId) := by
      intro hc
      apply hpr
      obtain ⟨a, b⟩ := pr
      rw [hc]
    rw [VisitMap.find_cons_ne m t _ v hne]
    simp [hpr]

theorem measureZ_cons (z : ℕ) (t : TileId) (v : Option Rect) (m : VisitMap)
    (htv : t.valid) (htz : t.zoom = z) (hfind : VisitMap.find m t = none) :
    measureZ z ((t, v) :: m) + 1 = measureZ z m := by
  have hteq : (⟨t.x, t.y, z⟩ : TileId) = t := by
    cases t
    cases htz
    rfl
  have hnotmem : (t.x, t.y) ∉ visitedZ z m := by
    rw [visitedZ, Finset.mem_filter]
    intro hc
    have := hc.2
    rw [hteq, hfind] at this
    cases this
  have hmem_grid : (t.x, t.y) ∈ gridZ z := by
    rw [gridZ, Finset.mem_product, Finset.mem_range, Finset.mem_range]
    cases htz
    exact htv
  have hsubset : insert (t.x, t.y) (visitedZ z m) ⊆ gridZ z :=
    Finset.insert_subset hmem_grid (visitedZ_subset_grid z m)
  have hcard : (visitedZ z m).card + 1 ≤ (gridZ z).card := by
    have := Finset.card_le_card hsubset
    rw [Finset.card_insert_of_not_mem hnotmem] at this
    exact this
  unfold measureZ
  rw [visitedZ_cons z t v m htv htz, Finset.card_insert_of_not_mem hnotmem]
  omega

/-! ### Fuel stability: the recursion terminates -/

theorem floodInner_stable (p : Projector) (vp : Rect) (z : ℕ) :
    ∀ (fuel₁ fuel₂ : ℕ) (t : TileId) (m : VisitMap),
      t.valid → t.zoom = z →
      measureZ z m + 1 ≤ fuel₁ → measureZ z m + 1 ≤ fuel₂ →
      floodInner p vp fuel₁ t m = floodInner p vp fuel₂ t m := by
  intro fuel₁
  induction fuel₁ with
  | zero =>
    intro fuel₂ t m _ _ h₁ _
    omega
  | succ fuel₁ ih =>
    intro fuel₂ t m htv htz h₁ h₂
    cases fuel₂ with
    | zero => omega
    | succ fuel₂ =>
      simp only [floodInner]
      cases hfind : VisitMap.find m t with
      | some v => rfl
      | none =>
        by_cases hint : vp.intersects (position_of_tile p t)
        · rw [if_pos hint, if_pos hint]
          have hm₁ : measureZ z ((t, some (position_of_tile p t)) :: m) + 1 =
              measureZ z m := measureZ_cons z t _ m htv htz hfind
          have hl : ∀ n ∈ t.neighbors.reduceOption, n.valid ∧ n.zoom = z := by
            intro n hn
            obtain ⟨ha, hb⟩ := neighbors_valid_zoom htv n hn
            exact ⟨ha, hb.trans htz⟩
          have hfold : ∀ (l : List TileId), (∀ n ∈ l, n.valid ∧ n.zoom = z) →
              ∀ (acc : VisitMap),
                VisitMap.submap ((t, some (position_of_tile p t)) :: m) acc →
                l.foldl (fun a n => floodInner p vp fuel₁ n a) acc =
                  l.foldl (fun a n => floodInner p vp fuel₂ n a) acc := by
            intro l
            induction l with
            | nil =>
              intro _ acc _
              rfl
            | cons n rest ihl =>
              intro hln acc hsub
              simp only [List.foldl_cons]
              have hacc : measureZ z acc ≤ measureZ z ((t, some (position_of_tile p t)) :: m) :=
                measureZ_le_of_submap z hsub
              have hstep : floodInner p vp fuel₁ n acc = floodInner p vp fuel₂ n acc := by
                refine ih fuel₂ n acc (hln n (List.mem_cons_self _ _)).1
                  (hln n (List.mem_cons_self _ _)).2 ?_ ?_ <;> omega
              rw [hstep]
              refine ihl (fun a ha => hln a (List.mem_cons_of_mem _ ha)) _ ?_
              rw [← hstep]
              exact VisitMap.submap_trans hsub (floodInner_submap p vp fuel₁ n acc)
          exact hfold _ hl _ (VisitMap.submap_refl _)
        · rw [if_neg hint, if_neg hint]

/-! ### Unfolding equations for one step of the flood fill -/

theorem floodInner_succ_found (p : Projector) (vp : Rect) (fuel : ℕ)
    (t : TileId) (m : VisitMap) (v : Option Rect)
    (h : VisitMap.find m t = some v) :
    floodInner p vp (fuel + 1) t m = m := by
  simp only [floodInner, h]

theorem floodInner_succ_accept (p : Projector) (vp : Rect) (fuel : ℕ)
    (t : TileId) (m : VisitMap) (h : VisitMap.find m t = none)
    (hint : vp.intersects (position_of_tile p t)) :
    floodInner p vp (fuel + 1) t m =
      (t.neighbors.reduceOption).foldl (fun acc n => floodInner p vp fuel n acc)
        ((t, some (position_of_tile p t)) :: m) := by
  simp only [floodInner, h, if_pos hint]

theorem floodInner_succ_reject (p : Projector) (vp : Rect) (fuel : ℕ)
    (t : TileId) (m : VisitMap) (h : VisitMap.find m t = none)
    (hint : ¬vp.intersects (position_of_tile p t)) :
    floodInner p vp (fuel + 1) t m = (t, none) :: m := by
  simp only [floodInner, h, if_neg hint]

/-! ### Closedness: every accepted tile's neighbors end up visited -/

theorem floodInner_fold_processed (p : Projector) (vp : Rect) (fuel : ℕ)
    (hfuel : 1 ≤ fuel) :
    ∀ (l : List TileId) (m : VisitMap) (n : TileId), n ∈ l →
      (VisitMap.find (l.foldl (fun acc a => floodInner p vp fuel a acc) m) n).isSome := by
  intro l
  induction l with
  | nil =>
    intro m n hn
    cases hn
  | cons a rest ih =>
    intro m n hn
    simp only [List.foldl_cons]
    rcases List.mem_cons.mp hn with hn | hn
    · subst hn
      obtain ⟨fuel₂, rfl⟩ : ∃ fuel₂, fuel = fuel₂ + 1 := ⟨fuel - 1, by omega⟩
      refine VisitMap.submap_isSome
        (floodInner_fold_submap p vp _ (floodInner_submap p vp _) rest _) n ?_
      exact floodInner_processed p vp fuel₂ n m
    · exact ih _ n hn

theorem floodInner_fold_closed (p : Projector) (vp : Rect) (z : ℕ) (fuel : ℕ)
    (hstep : ∀ (t : TileId) (m : VisitMap), t.valid → t.zoom = z →
      measureZ z m + 1 ≤ fuel →
      ∀ k r, VisitMap.find (floodInner p vp fuel t m) k = some (some r) →
        VisitMap.find m k = some (some r) ∨
        ∀ n ∈ k.neighbors.reduceOption,
          (VisitMap.find (floodInner p vp fuel t m) n).isSome) :
    ∀ (l : List TileId), (∀ n ∈ l, n.valid ∧ n.zoom = z) →
      ∀ (m : VisitMap), measureZ z m + 1 ≤ fuel →
      ∀ k r, VisitMap.find (l.foldl (fun acc a => floodInner p vp fuel a acc) m) k =
          some (some r) →
        VisitMap.find m k = some (some r) ∨
        ∀ n ∈ k.neighbors.reduceOption,
          (VisitMap.find (l.foldl (fun acc a => floodInner p vp fuel a acc) m) n).isSome := by
  intro l
  induction l with
  | nil =>
    intro _ m _ k r h
    exact Or.inl h
  | cons a rest ih =>
    intro hl m hm k r h
    simp only [List.foldl_cons] at h ⊢
    have hsub : VisitMap.submap m (floodInner p vp fuel a m) :=
      floodInner_submap p vp fuel a m
    have hm₂ : measureZ z (floodInner p vp fuel a m) + 1 ≤ fuel := by
      have := measureZ_le_of_submap z hsub
      omega
    rcases ih (fun n hn => hl n (List.mem_cons_of_mem _ hn)) _ hm₂ k r h with h₂ | h₂
    · rcases hstep a m (hl a (List.mem_cons_self _ _)).1 (hl a (List.mem_cons_self _ _)).2
        hm k r h₂ with h₃ | h₃
      · exact Or.inl h₃
      · refine Or.inr fun n hn => ?_
        exact VisitMap.submap_isSome
          (floodInner_fold_submap p vp fuel (floodInner_submap p vp fuel) rest _) n (h₃ n hn)
    · exact Or.inr h₂

theorem floodInner_closed (p : Projector) (vp : Rect) (z : ℕ) :
    ∀ (fuel : ℕ) (t : TileId) (m : VisitMap),
      t.valid → t.zoom = z → measureZ z m + 1 ≤ fuel →
      ∀ k r, VisitMap.find (floodInner p vp fuel t m) k = some (some r) →
        VisitMap.find m k = some (some r) ∨
        ∀ n ∈ k.neighbors.reduceOption,
          (VisitMap.find (floodInner p vp fuel t m) n).isSome := by
  intro fuel
  induction fuel with
  | zero =>
    intro t m _ _ h₁
    omega
  | succ fuel ih =>
    intro t m htv htz hm k r h
    cases hfind : VisitMap.find m t with
    | some v =>
      rw [floodInner_succ_found p vp fuel t m v hfind] at h ⊢
      exact Or.inl h
    | none =>
      by_cases hint : vp.intersects (position_of_tile p t)
      · rw [floodInner_succ_accept p vp fuel t m hfind hint] at h ⊢
        have hm₁ : measureZ z ((t, some (position_of_tile p t)) :: m) + 1 =
            measureZ z m := measureZ_cons z t _ m htv htz hfind
        have hl : ∀ n ∈ t.neighbors.reduceOption, n.valid ∧ n.zoom = z := by
          intro n hn
          obtain ⟨ha, hb⟩ := neighbors_valid_zoom htv n hn
          exact ⟨ha, hb.trans htz⟩
        have hm₂ : measureZ z ((t, some (position_of_tile p t)) :: m) + 1 ≤ fuel := by
          omega
        rcases floodInner_fold_closed p vp z fuel ih _ hl _ hm₂ k r h with h₂ | h₂
        · by_cases hk : t = k
          · subst hk
            refine Or.inr fun n hn => ?_
            exact floodInner_fold_processed p vp fuel (by omega) _ _ n hn
          · rw [VisitMap.find_cons_ne m t k _ hk] at h₂
            exact Or.inl h₂
        · exact Or.inr h₂
      · rw [floodInner_succ_reject p vp fuel t m hfind hint] at h ⊢
        by_cases hk : t = k
        · subst hk
          rw [VisitMap.find_cons_self] at h
          cases h
        · rw [VisitMap.find_cons_ne m t k _ hk] at h
          exact Or.inl h
end Slippery

namespace Slippery

/-! ### Geometry of projected tile rectangles -/

theorem position_of_tile_x_formula (p : Projector) (i j z : ℕ) :
    (position_of_tile p ⟨i, j, z⟩).x =
      p.bounds.center.x + ((2 * (i : ℚ) / (total_tiles z : ℚ) - 1) * p.phw -
        roundCeil (p.position.x * p.phw)) := rfl

theorem position_of_tile_y_formula (p : Projector) (i j z : ℕ) :
    (position_of_tile p ⟨i, j, z⟩).y =
      p.bounds.center.y + ((2 * (j : ℚ) / (total_tiles z : ℚ) - 1) * p.phw -
        roundCeil (p.position.y * p.phw)) := rfl

theorem position_of_tile_width (p : Projector) (i j z : ℕ) :
    (position_of_tile p ⟨i, j, z⟩).width = 2 * p.phw / (total_tiles z : ℚ) := rfl

theorem position_of_tile_height (p : Projector) (i j z : ℕ) :
    (position_of_tile p ⟨i, j, z⟩).height = 2 * p.phw / (total_tiles z : ℚ) := rfl

/-- Rust `Rect.intersects` on a projected tile rectangle is exactly per-axis
overlap: the x-condition depends only on the tile's column and the
y-condition only on its row. -/
theorem intersects_iff_overlap (p : Projector) (vp : Rect) (t : TileId) :
    vp.intersects (position_of_tile p t) ↔
      overlapX p vp t.zoom t.x ∧ overlapY p vp t.zoom t.y := Iff.rfl

theorem totalQ_pos (z : ℕ) : (0 : ℚ) < (total_tiles z : ℚ) := by
  have : 0 < total_tiles z := Nat.pos_pow_of_pos z (by norm_num)
  exact_mod_cast this

theorem overlapX_between (p : Projector) (vp : Rect) (z : ℕ)
    (hphw : 0 < p.phw) {i₁ i i₂ : ℕ} (h₁ : overlapX p vp z i₁)
    (h₂ : overlapX p vp z i₂) (hle₁ : i₁ ≤ i) (hle₂ : i ≤ i₂) :
    overlapX p vp z i := by
  have hT : (0 : ℚ) < (total_tiles z : ℚ) := totalQ_pos z
  have hmono : ∀ a b : ℕ, a ≤ b →
      (position_of_tile p ⟨a, 0, z⟩).x ≤ (position_of_tile p ⟨b, 0, z⟩).x := by
    intro a b hab
    rw [position_of_tile_x_formula, position_of_tile_x_formula]
    have hq : (a : ℚ) ≤ (b : ℚ) := by exact_mod_cast hab
    gcongr
  have hs : (0 : ℚ) < 2 * p.phw / (total_tiles z : ℚ) := by positivity
  unfold overlapX at h₁ h₂ ⊢
  rw [max_lt_iff, lt_min_iff, lt_min_iff] at h₁ h₂ ⊢
  obtain ⟨⟨h₁a, h₁b⟩, h₁c, h₁d⟩ := h₁
  obtain ⟨⟨h₂a, h₂b⟩, h₂c, h₂d⟩ := h₂
  have hm₁ := hmono i₁ i hle₁
  have hm₂ := hmono i i₂ hle₂
  constructor
  · constructor
    · exact h₁a
    · linarith
  · constructor
    · linarith
    · linarith

theorem overlapY_between (p : Projector) (vp : Rect) (z : ℕ)
    (hphw : 0 < p.phw) {j₁ j j₂ : ℕ} (h₁ : overlapY p vp z j₁)
    (h₂ : overlapY p vp z j₂) (hle₁ : j₁ ≤ j) (hle₂ : j ≤ j₂) :
    overlapY p vp z j := by
  have hT : (0 : ℚ) < (total_tiles z : ℚ) := totalQ_pos z
  have hmono : ∀ a b : ℕ, a ≤ b →
      (position_of_tile p ⟨0, a, z⟩).y ≤ (position_of_tile p ⟨0, b, z⟩).y := by
    intro a b hab
    rw [position_of_tile_y_formula, position_of_tile_y_formula]
    have hq : (a : ℚ) ≤ (b : ℚ) := by exact_mod_cast hab
    gcongr
  have hs : (0 : ℚ) < 2 * p.phw / (total_tiles z : ℚ) := by positivity
  unfold overlapY at h₁ h₂ ⊢
  rw [max_lt_iff, lt_min_iff, lt_min_iff] at h₁ h₂ ⊢
  obtain ⟨⟨h₁a, h₁b⟩, h₁c, h₁d⟩ := h₁
  obtain ⟨⟨h₂a, h₂b⟩, h₂c, h₂d⟩ := h₂
  have hm₁ := hmono j₁ j hle₁
  have hm₂ := hmono j j₂ hle₂
  constructor
  · constructor
    · exact h₁a
    · linarith
  · constructor
    · linarith
    · linarith

theorem roundCeil_bounds (q : ℚ) :
    -1 / 2 ≤ q - roundCeil q ∧ q - roundCeil q < 1 / 2 := by
  unfold roundCeil
  have h₁ : (⌊q + 1 / 2⌋ : ℚ) ≤ q + 1 / 2 := Int.floor_le _
  have h₂ : q + 1 / 2 < ⌊q + 1 / 2⌋ + 1 := Int.lt_floor_add_one _
  constructor <;> linarith

/-- Central-tile coordinate bound: at zoom `z`, the clamped floor coordinate
computed by `Mercator::tile_id` brackets the exact position
`u = (pos + 1)/2 · 2^z` within one tile width. -/
theorem center_coord_bounds (z : ℕ) (q : ℚ) (hq1 : -1 ≤ q) (hq2 : q ≤ 1) :
    ((min (Int.toNat ⌊(q + 1) / 2 * (total_tiles z : ℚ)⌋) (total_tiles z - 1) : ℕ) : ℚ) ≤
        (q + 1) / 2 * (total_tiles z : ℚ) ∧
      (q + 1) / 2 * (total_tiles z : ℚ) ≤
        ((min (Int.toNat ⌊(q + 1) / 2 * (total_tiles z : ℚ)⌋) (total_tiles z - 1) : ℕ) : ℚ) + 1 := by
  have hT : (0 : ℚ) < (total_tiles z : ℚ) := totalQ_pos z
  have hTn : 1 ≤ total_tiles z := Nat.one_le_two_pow
  set u : ℚ := (q + 1) / 2 * (total_tiles z : ℚ) with hu
  have hu0 : 0 ≤ u := by
    rw [hu]
    apply mul_nonneg _ hT.le
    linarith
  have huT : u ≤ (total_tiles z : ℚ) := by
    rw [hu]
    nlinarith
  have hfl0 : 0 ≤ ⌊u⌋ := Int.floor_nonneg.mpr hu0
  have hn : ((Int.toNat ⌊u⌋ : ℕ) : ℤ) = ⌊u⌋ := Int.toNat_of_nonneg hfl0
  constructor
  · calc ((min (Int.toNat ⌊u⌋) (total_tiles z - 1) : ℕ) : ℚ)
        ≤ ((Int.toNat ⌊u⌋ : ℕ) : ℚ) := by
          exact_mod_cast Nat.min_le_left _ _
      _ = ((⌊u⌋ : ℤ) : ℚ) := by exact_mod_cast congrArg Int.cast hn
      _ ≤ u := Int.floor_le u
  · by_cases hcase : Int.toNat ⌊u⌋ ≤ total_tiles z - 1
    · rw [min_eq_left hcase]
      have : u < ⌊u⌋ + 1 := Int.lt_floor_add_one u
      have hcast : ((Int.toNat ⌊u⌋ : ℕ) : ℚ) = ((⌊u⌋ : ℤ) : ℚ) := by
        exact_mod_cast congrArg Int.cast hn
      rw [hcast]
      linarith
    · rw [min_eq_right (le_of_not_le hcase)]
      have hcast : ((total_tiles z - 1 : ℕ) : ℚ) = (total_tiles z : ℚ) - 1 := by
        have h₁ : (1 : ℕ) ≤ total_tiles z := hTn
        push_cast [Nat.cast_sub h₁]
        ring
      rw [hcast]
      linarith

end Slippery

namespace Slippery

/-! ### The central tile is valid and intersects the expanded viewport -/

theorem center_tile_valid (p : Projector) (z : ℕ) : (p.position.tile_id z).valid := by
  have hTn : 1 ≤ total_tiles z := Nat.one_le_two_pow
  refine ⟨?_, ?_⟩ <;>
    exact lt_of_le_of_lt (Nat.min_le_right _ _)
      (show total_tiles z - 1 < total_tiles z by omega)

theorem center_tile_x (p : Projector) (z : ℕ) :
    (p.position.tile_id z).x =
      min (Int.toNat ⌊(p.position.x + 1) / 2 * (total_tiles z : ℚ)⌋)
        (total_tiles z - 1) := rfl

theorem center_tile_y (p : Projector) (z : ℕ) :
    (p.position.tile_id z).y =
      min (Int.toNat ⌊(p.position.y + 1) / 2 * (total_tiles z : ℚ)⌋)
        (total_tiles z - 1) := rfl

theorem center_overlapX (p : Projector) (z : ℕ) (hphw : 0 < p.phw)
    (hx1 : -1 ≤ p.position.x) (hx2 : p.position.x ≤ 1)
    (hw : 0 ≤ p.bounds.width) :
    overlapX p (p.bounds.expand 32) z (p.position.tile_id z).x := by
  have hT : (0 : ℚ) < (total_tiles z : ℚ) := totalQ_pos z
  obtain ⟨hlow, hup⟩ := center_coord_bounds z p.position.x hx1 hx2
  rw [← center_tile_x p z] at hlow hup
  unfold overlapX
  rw [position_of_tile_x_formula]
  simp only [Rect.expand, Rect.center]
  set cq : ℚ := ((p.position.tile_id z).x : ℚ) with hcq
  set q : ℚ := p.position.x * p.phw with hq
  obtain ⟨hrc1, hrc2⟩ := roundCeil_bounds q
  have hs : (0 : ℚ) < 2 * p.phw / (total_tiles z : ℚ) := by positivity
  -- lower containment: the tile's left edge is at or left of the viewpoint pixel
  have ha : (2 * cq / (total_tiles z : ℚ) - 1) * p.phw ≤ q := by
    have h₁ : 2 * cq / (total_tiles z : ℚ) ≤ p.position.x + 1 := by
      rw [div_le_iff₀ hT]
      nlinarith
    nlinarith
  -- upper containment: the viewpoint pixel is within one tile width
  have hb : q ≤ (2 * cq / (total_tiles z : ℚ) - 1) * p.phw +
      2 * p.phw / (total_tiles z : ℚ) := by
    have h₁ : p.position.x + 1 ≤ 2 * (cq + 1) / (total_tiles z : ℚ) := by
      rw [le_div_iff₀ hT]
      nlinarith
    have h₂ : (2 * (cq + 1) / (total_tiles z : ℚ) - 1) * p.phw =
        (2 * cq / (total_tiles z : ℚ) - 1) * p.phw +
          2 * p.phw / (total_tiles z : ℚ) := by
      field_simp
      ring
    nlinarith
  rw [max_lt_iff, lt_min_iff, lt_min_iff]
  constructor
  · constructor
    · linarith
    · linarith
  · constructor
    · linarith
    · linarith

theorem center_overlapY (p : Projector) (z : ℕ) (hphw : 0 < p.phw)
    (hy1 : -1 ≤ p.position.y) (hy2 : p.position.y ≤ 1)
    (hh : 0 ≤ p.bounds.height) :
    overlapY p (p.bounds.expand 32) z (p.position.tile_id z).y := by
  have hT : (0 : ℚ) < (total_tiles z : ℚ) := totalQ_pos z
  obtain ⟨hlow, hup⟩ := center_coord_bounds z p.position.y hy1 hy2
  rw [← center_tile_y p z] at hlow hup
  unfold overlapY
  rw [position_of_tile_y_formula]
  simp only [Rect.expand, Rect.center]
  set cq : ℚ := ((p.position.tile_id z).y : ℚ) with hcq
  set q : ℚ := p.position.y * p.phw with hq
  obtain ⟨hrc1, hrc2⟩ := roundCeil_bounds q
  have hs : (0 : ℚ) < 2 * p.phw / (total_tiles z : ℚ) := by positivity
  have ha : (2 * cq / (total_tiles z : ℚ) - 1) * p.phw ≤ q := by
    have h₁ : 2 * cq / (total_tiles z : ℚ) ≤ p.position.y + 1 := by
      rw [div_le_iff₀ hT]
      nlinarith
    nlinarith
  have hb : q ≤ (2 * cq / (total_tiles z : ℚ) - 1) * p.phw +
      2 * p.phw / (total_tiles z : ℚ) := by
    have h₁ : p.position.y + 1 ≤ 2 * (cq + 1) / (total_tiles z : ℚ) := by
      rw [le_div_iff₀ hT]
      nlinarith
    have h₂ : (2 * (cq + 1) / (total_tiles z : ℚ) - 1) * p.phw =
        (2 * cq / (total_tiles z : ℚ) - 1) * p.phw +
          2 * p.phw / (total_tiles z : ℚ) := by
      field_simp
      ring
    nlinarith
  rw [max_lt_iff, lt_min_iff, lt_min_iff]
  constructor
  · constructor
    · linarith
    · linarith
  · constructor
    · linarith
    · linarith

theorem measureZ_nil (z : ℕ) :
    measureZ z ([] : VisitMap) = total_tiles z * total_tiles z := by
  unfold measureZ visitedZ
  have hempty : (gridZ z).filter
      (fun pr => (VisitMap.find ([] : VisitMap) ⟨pr.1, pr.2, z⟩).isSome) = ∅ := by
    apply Finset.filter_false_of_mem
    intro pr _
    simp [VisitMap.find]
  rw [hempty, Finset.card_empty, Nat.sub_zero]
  simp [gridZ]

theorem filterMap_keys_sublist (l : List (TileId × Option Rect)) :
    ((l.filterMap fun pr => pr.2.map fun r => (pr.1, r)).map
      Prod.fst).Sublist (l.map Prod.fst) := by
  induction l with
  | nil => exact List.Sublist.refl _
  | cons kv rest ih =>
    obtain ⟨k, v⟩ := kv
    cases v with
    | none =>
      simp only [List.filterMap_cons, Option.map_none, List.map_cons]
      exact ih.cons k
    | some r =>
      simp only [List.filterMap_cons, Option.map_some, List.map_cons]
      exact ih.cons₂ k

end Slippery

namespace Slippery

/-- C1: for every viewpoint (valid Mercator position, positive pixel scale
covering every zoom configuration) and viewport bounds (expanded by the 32 px
margin as at the call site in `Widget::update`), the flood fill (i) is stable
under any extra recursion budget beyond one slot per grid tile — the
recursion terminates with that result; (ii) its result contains every tile of
the searched zoom level whose projected on-screen rectangle intersects the
expanded viewport; and (iii) no tile coordinate appears twice in the
result. -/
theorem flood_tiles_correct (p : Projector) (z : ℕ)
    (hphw : 0 < p.phw)
    (hx1 : -1 ≤ p.position.x) (hx2 : p.position.x ≤ 1)
    (hy1 : -1 ≤ p.position.y) (hy2 : p.position.y ≤ 1)
    (hw : 0 ≤ p.bounds.width) (hh : 0 ≤ p.bounds.height) :
    (∀ extra : ℕ,
      floodInner p (p.bounds.expand 32) (floodFuel z + extra)
          (p.position.tile_id z) [] =
        floodInner p (p.bounds.expand 32) (floodFuel z)
          (p.position.tile_id z) []) ∧
      (∀ t : TileId, t.zoom = z → t.valid →
        (p.bounds.expand 32).intersects (position_of_tile p t) →
        (t, position_of_tile p t) ∈ flood_tiles p (p.bounds.expand 32) z) ∧
      ((flood_tiles p (p.bounds.expand 32) z).map Prod.fst).Nodup := by
  set vp := p.bounds.expand 32 with hvp
  set c := p.position.tile_id z with hc
  have hcz : c.zoom = z := by
    rw [hc]
    rfl
  have hcv : c.valid := center_tile_valid p z
  have hcvx : c.x < total_tiles z := hcv.1
  have hcvy : c.y < total_tiles z := hcv.2
  have hmeas : measureZ z ([] : VisitMap) + 1 ≤ floodFuel z := by
    rw [measureZ_nil z]
    unfold floodFuel
    omega
  set M := floodInner p vp (floodFuel z) c [] with hM
  have hsound : ∀ k v, VisitMap.find M k = some v → goodBinding p vp z k v := by
    intro k v hfind
    rcases floodInner_sound p vp z (floodFuel z) c hcv hcz [] k v hfind with h | h
    · simp [VisitMap.find] at h
    · exact h
  have hclosed : ∀ k r, VisitMap.find M k = some (some r) →
      ∀ n ∈ k.neighbors.reduceOption, (VisitMap.find M n).isSome := by
    intro k r hfind
    rcases floodInner_closed p vp z (floodFuel z) c [] hcv hcz hmeas k r hfind with h | h
    · simp [VisitMap.find] at h
    · exact h
  have hstep : ∀ a b : TileId, (∃ ra, VisitMap.find M a = some (some ra)) →
      b ∈ a.neighbors.reduceOption → vp.intersects (position_of_tile p b) →
      VisitMap.find M b = some (some (position_of_tile p b)) := by
    rintro a b ⟨ra, hfa⟩ hb hint
    have hsome := hclosed a ra hfa b hb
    obtain ⟨v, hv⟩ := Option.isSome_iff_exists.mp hsome
    rcases hsound b v hv with ⟨_, _, hgood⟩
    rcases hgood with ⟨hveq, _⟩ | ⟨_, hnint⟩
    · rw [hv, hveq]
    · exact absurd hint hnint
  have hcox : overlapX p vp z c.x := center_overlapX p z hphw hx1 hx2 hw
  have hcoy : overlapY p vp z c.y := center_overlapY p z hphw hy1 hy2 hh
  have hintc : vp.intersects (position_of_tile p c) := by
    rw [intersects_iff_overlap, hcz]
    exact ⟨hcox, hcoy⟩
  have hcfound : VisitMap.find M c = some (some (position_of_tile p c)) := by
    have hps : (VisitMap.find M c).isSome := by
      have hsucc : floodFuel z = total_tiles z * total_tiles z + 1 := rfl
      rw [hM, hsucc]
      exact floodInner_processed p vp _ c []
    obtain ⟨v, hv⟩ := Option.isSome_iff_exists.mp hps
    rcases hsound c v hv with ⟨_, _, hgood⟩
    rcases hgood with ⟨hveq, _⟩ | ⟨_, hnint⟩
    · rw [hv, hveq]
    · exact absurd hintc hnint
  have hwalk : ∀ (n : ℕ) (t : TileId), t.valid → t.zoom = z →
      overlapX p vp z t.x → overlapY p vp z t.y →
      Nat.dist c.x t.x + Nat.dist c.y t.y = n →
      VisitMap.find M t = some (some (position_of_tile p t)) := by
    intro n
    induction n using Nat.strong_induction_on with
    | _ n ih =>
      intro t htv htz hox hoy hdist
      have hteq : (⟨t.x, t.y, z⟩ : TileId) = t := by rw [← htz]
      have htvx : t.x < total_tiles z := by
        have h₀ := htv.1
        rwa [htz] at h₀
      have htvy : t.y < total_tiles z := by
        have h₀ := htv.2
        rwa [htz] at h₀
      have hint : vp.intersects (position_of_tile p t) := by
        rw [intersects_iff_overlap, htz]
        exact ⟨hox, hoy⟩
      by_cases hxeq : t.x = c.x
      · by_cases hyeq : t.y = c.y
        · have hc₂ : c = (⟨c.x, c.y, z⟩ : TileId) := by rw [← hcz]
          have hteq₂ : t = c := by
            rw [← hteq, hxeq, hyeq, ← hc₂]
          rw [hteq₂]
          exact hcfound
        · rcases Nat.lt_or_ge t.y c.y with hlt | hge
          · -- t is north of the centre column point: reach it from the tile below
            have hd' : Nat.dist c.x t.x + Nat.dist c.y (t.y + 1) < n := by
              simp only [Nat.dist] at hdist ⊢
              omega
            have ht'v : (⟨t.x, t.y + 1, z⟩ : TileId).valid :=
              ⟨htvx, show t.y + 1 < total_tiles z by omega⟩
            have hoy' : overlapY p vp z (t.y + 1) :=
              overlapY_between p vp z hphw hoy hcoy (by omega) (by omega)
            have hfound' := ih _ hd' ⟨t.x, t.y + 1, z⟩ ht'v rfl hox hoy' rfl
            have hnb : (⟨t.x, t.y + 1, z⟩ : TileId).north = some t := by
              rw [← hteq]
              simp [TileId.north]
            have hmem : t ∈ (⟨t.x, t.y + 1, z⟩ : TileId).neighbors.reduceOption := by
              rw [List.reduceOption_mem_iff]
              show some t ∈ [(⟨t.x, t.y + 1, z⟩ : TileId).north,
                (⟨t.x, t.y + 1, z⟩ : TileId).east, (⟨t.x, t.y + 1, z⟩ : TileId).south,
                (⟨t.x, t.y + 1, z⟩ : TileId).west]
              rw [hnb]
              exact List.mem_cons_self _ _
            exact hstep ⟨t.x, t.y + 1, z⟩ t ⟨_, hfound'⟩ hmem hint
          · have hlt : c.y < t.y := by omega
            have hd' : Nat.dist c.x t.x + Nat.dist c.y (t.y - 1) < n := by
              simp only [Nat.dist] at hdist ⊢
              omega
            have ht'v : (⟨t.x, t.y - 1, z⟩ : TileId).valid :=
              ⟨htvx, show t.y - 1 < total_tiles z by omega⟩
            have hoy' : overlapY p vp z (t.y - 1) :=
              overlapY_between p vp z hphw hcoy hoy (by omega) (by omega)
            have hfound' := ih _ hd' ⟨t.x, t.y - 1, z⟩ ht'v rfl hox hoy' rfl
            have hnb : (⟨t.x, t.y - 1, z⟩ : TileId).south = some t := by
              rw [← hteq]
              unfold TileId.south
              rw [if_pos (show t.y - 1 < total_tiles z - 1 by omega)]
              have hy₀ : t.y - 1 + 1 = t.y := by omega
              rw [hy₀]
            have hmem : t ∈ (⟨t.x, t.y - 1, z⟩ : TileId).neighbors.reduceOption := by
              rw [List.reduceOption_mem_iff]
              show some t ∈ [(⟨t.x, t.y - 1, z⟩ : TileId).north,
                (⟨t.x, t.y - 1, z⟩ : TileId).east, (⟨t.x, t.y - 1, z⟩ : TileId).south,
                (⟨t.x, t.y - 1, z⟩ : TileId).west]
              rw [hnb]
              exact List.mem_cons_of_mem _ (List.mem_cons_of_mem _
                (List.mem_cons_self _ _))
            exact hstep ⟨t.x, t.y - 1, z⟩ t ⟨_, hfound'⟩ hmem hint
      · rcases Nat.lt_or_ge t.x c.x with hlt | hge
        · have hd' : Nat.dist c.x (t.x + 1) + Nat.dist c.y t.y < n := by
            simp only [Nat.dist] at hdist ⊢
            omega
          have ht'v : (⟨t.x + 1, t.y, z⟩ : TileId).valid :=
            ⟨show t.x + 1 < total_tiles z by omega, htvy⟩
          have hox' : overlapX p vp z (t.x + 1) :=
            overlapX_between p vp z hphw hox hcox (by omega) (by omega)
          have hfound' := ih _ hd' ⟨t.x + 1, t.y, z⟩ ht'v rfl hox' hoy rfl
          have hnb : (⟨t.x + 1, t.y, z⟩ : TileId).west = some t := by
            rw [← hteq]
            simp [TileId.west]
          have hmem : t ∈ (⟨t.x + 1, t.y, z⟩ : TileId).neighbors.reduceOption := by
            rw [List.reduceOption_mem_iff]
            show some t ∈ [(⟨t.x + 1, t.y, z⟩ : TileId).north,
              (⟨t.x + 1, t.y, z⟩ : TileId).east, (⟨t.x + 1, t.y, z⟩ : TileId).south,
              (⟨t.x + 1, t.y, z⟩ : TileId).west]
            rw [hnb]
            exact List.mem_cons_of_mem _ (List.mem_cons_of_mem _
              (List.mem_cons_of_mem _ (List.mem_cons_self _ _)))
          exact hstep ⟨t.x + 1, t.y, z⟩ t ⟨_, hfound'⟩ hmem hint
        · have hlt : c.x < t.x := by omega
          have hd' : Nat.dist c.x (t.x - 1) + Nat.dist c.y t.y < n := by
            simp only [Nat.dist] at hdist ⊢
            omega
          have ht'v : (⟨t.x - 1, t.y, z⟩ : TileId).valid :=
            ⟨show t.x - 1 < total_tiles z by omega, htvy⟩
          have hox' : overlapX p vp z (t.x - 1) :=
            overlapX_between p vp z hphw hcox hox (by omega) (by omega)
          have hfound' := ih _ hd' ⟨t.x - 1, t.y, z⟩ ht'v rfl hox' hoy rfl
          have hnb : (⟨t.x - 1, t.y, z⟩ : TileId).east = some t := by
            rw [← hteq]
            unfold TileId.east
            rw [if_pos (show t.x - 1 < total_tiles z - 1 by omega)]
            have hx₀ : t.x - 1 + 1 = t.x := by omega
            rw [hx₀]
          have hmem : t ∈ (⟨t.x - 1, t.y, z⟩ : TileId).neighbors.reduceOption := by
            rw [List.reduceOption_mem_iff]
            show some t ∈ [(⟨t.x - 1, t.y, z⟩ : TileId).north,
              (⟨t.x - 1, t.y, z⟩ : TileId).east, (⟨t.x - 1, t.y, z⟩ : TileId).south,
              (⟨t.x - 1, t.y, z⟩ : TileId).west]
            rw [hnb]
            exact List.mem_cons_of_mem _ (List.mem_cons_self _ _)
          exact hstep ⟨t.x - 1, t.y, z⟩ t ⟨_, hfound'⟩ hmem hint
  refine ⟨?_, ?_, ?_⟩
  · intro extra
    refine floodInner_stable p vp z _ _ c [] hcv hcz ?_ hmeas
    rw [measureZ_nil z]
    unfold floodFuel
    omega
  · intro t htz htv hint
    have hov := (intersects_iff_overlap p vp t).mp hint
    rw [htz] at hov
    have hfound := hwalk (Nat.dist c.x t.x + Nat.dist c.y t.y) t htv htz hov.1 hov.2 rfl
    show (t, position_of_tile p t) ∈ flood_tiles p vp z
    unfold flood_tiles
    rw [List.mem_filterMap]
    exact ⟨(t, some (position_of_tile p t)), VisitMap.find_mem hfound, rfl⟩
  · show ((flood_tiles p vp z).map Prod.fst).Nodup
    unfold flood_tiles
    exact List.Nodup.sublist (filterMap_keys_sublist _)
      (floodInner_nodup p vp (floodFuel z) c [] (by simp))

end Slippery

namespace Slippery

theorem flood_tiles_correct_witness :
    (0 : ℚ) < (⟨⟨0, 0⟩, 512, ⟨0, 0, 800, 600⟩⟩ : Projector).phw ∧
      ((∀ extra : ℕ,
        floodInner ⟨⟨0, 0⟩, 512, ⟨0, 0, 800, 600⟩⟩
            ((⟨⟨0, 0⟩, 512, ⟨0, 0, 800, 600⟩⟩ : Projector).bounds.expand 32)
            (floodFuel 1 + extra)
            ((⟨⟨0, 0⟩, 512, ⟨0, 0, 800, 600⟩⟩ : Projector).position.tile_id 1) [] =
          floodInner ⟨⟨0, 0⟩, 512, ⟨0, 0, 800, 600⟩⟩
            ((⟨⟨0, 0⟩, 512, ⟨0, 0, 800, 600⟩⟩ : Projector).bounds.expand 32)
            (floodFuel 1)
            ((⟨⟨0, 0⟩, 512, ⟨0, 0, 800, 600⟩⟩ : Projector).position.tile_id 1) []) ∧
        (∀ t : TileId, t.zoom = 1 → t.valid →
          ((⟨⟨0, 0⟩, 512, ⟨0, 0, 800, 600⟩⟩ : Projector).bounds.expand 32).intersects
            (position_of_tile ⟨⟨0, 0⟩, 512, ⟨0, 0, 800, 600⟩⟩ t) →
          (t, position_of_tile ⟨⟨0, 0⟩, 512, ⟨0, 0, 800, 600⟩⟩ t) ∈
            flood_tiles ⟨⟨0, 0⟩, 512, ⟨0, 0, 800, 600⟩⟩
              ((⟨⟨0, 0⟩, 512, ⟨0, 0, 800, 600⟩⟩ : Projector).bounds.expand 32) 1) ∧
        ((flood_tiles ⟨⟨0, 0⟩, 512, ⟨0, 0, 800, 600⟩⟩
            ((⟨⟨0, 0⟩, 512, ⟨0, 0, 800, 600⟩⟩ : Projector).bounds.expand 32) 1).map
          Prod.fst).Nodup) :=
  ⟨by norm_num,
    flood_tiles_correct ⟨⟨0, 0⟩, 512, ⟨0, 0, 800, 600⟩⟩ 1 (by norm_num) (by norm_num)
      (by norm_num) (by norm_num) (by norm_num) (by norm_num) (by norm_num)⟩

end Slippery
